import Mathlib

/-!
Verification of the module-composition engine: the dependency resolver in
`master/core/modules.py` (descriptor validation, dependency graph, load order),
the type registry and composition compiler in `master/core/registry.py`, and the
class-name norm in `master/tools/norms.py`.

The Python code is shallowly embedded: mutable objects become explicit state
passing over records, Python lists become `List`, dicts keyed by module name
become association lists in insertion order, and fallible operations return
`Except` or `Option`.  Filesystem discovery, pip installation and module import
are out of scope; the discovered configurations are the inputs.
-/

/-! ## Embedding of `master/core/modules.py` -/

def base_addon : String := "base"

/-- One module configuration (`Configuration` in `modules.py`).  The fields
`location`, `auto_install`, `mode` and `kwargs` play no role in dependency
resolution or ordering and are omitted. -/
structure Configuration where
  name : String
  depends : List String
  sequence : Int
  reversed_depends : List String
deriving Repr, DecidableEq

def isPySpace (c : Char) : Bool :=
  c = ' ' ∨ c = '\t' ∨ c = '\n' ∨ c = '\r' ∨ c = '\x0b' ∨ c = '\x0c'

/-- Python `str.strip()`: drop whitespace from both ends. -/
def pyStrip (s : String) : String :=
  ⟨(((s.data.dropWhile isPySpace).reverse).dropWhile isPySpace).reverse⟩

/-- Embeds `Configuration.__init__`: normalizes the dependency list (empty
entries dropped, entries stripped), applies the default sequence 16 when the
given one is absent or non-positive, prepends the base addon for non-base
modules when absent, and forces the base module's dependency list empty.
`name` is `path.name` in the source. -/
def mkConfiguration (name : String) (depends : List String) (sequence : Option Int) :
    Configuration :=
  let deps0 := (depends.filter (fun s => s ≠ "")).map pyStrip
  let seq : Int :=
    match sequence with
    | none => 16
    | some s => if s ≤ 0 then 16 else s
  let deps1 := if name ≠ base_addon ∧ base_addon ∉ deps0 then base_addon :: deps0 else deps0
  let deps2 := if name = base_addon then [] else deps1
  { name := name, depends := deps2, sequence := seq, reversed_depends := [] }

/-- One node of the dependency graph (`Node` in `modules.py`).  Children and
parents are recorded by module name; node names are unique by construction
(`Graph.build_node` only creates a node for a fresh name), so names identify
nodes faithfully. -/
structure Node where
  name : String
  sequence : Int
  factor : Int
  children : List String
  parents : List String
deriving Repr, DecidableEq

/-- `Node.__init__`: the factor starts at 10. -/
def mkNode (c : Configuration) : Node :=
  { name := c.name, sequence := c.sequence, factor := 10, children := [], parents := [] }

def findNode (ns : List Node) (name : String) : Option Node :=
  ns.find? (fun n => n.name = name)

/-- `Node.add_child`: appends the child to the parent's children, the parent to
the child's parents, and increments the child's factor by the parent's current
factor. -/
def addChild (ns : List Node) (parent child : String) : List Node :=
  let pf := ((findNode ns parent).map Node.factor).getD 0
  ns.map (fun n =>
    let n1 := if n.name = parent then { n with children := n.children ++ [child] } else n
    if n1.name = child then { n1 with parents := n1.parents ++ [parent], factor := n1.factor + pf }
    else n1)

/-- Node construction in `Graph.__init__`: the graph is seeded with the base
module's node, then `build_node` adds one node per configuration whose name is
not present yet. -/
def buildNodes (baseCfg : Configuration) (configs : List Configuration) : List Node :=
  configs.foldl
    (fun ns cfg => if (findNode ns cfg.name).isSome then ns else ns ++ [mkNode cfg])
    [mkNode baseCfg]

/-- The dependency loop of `Graph.build_links` for one configuration, with
CPython `for` semantics made explicit: the loop walks `depends` by an internal
index; when a dependency is unknown it is appended to the missing list and
`list.remove` deletes its first occurrence, shifting later entries one position
left under the advancing index (so the entry right after a removed one is never
examined).  Known dependencies are linked via `add_child`.  Returns the updated
nodes, the missing list, and the mutated dependency list. -/
def processDeps (cfgName : String) (nodes : List Node) (incorrect : List String)
    (deps : List String) (i : Nat) : List Node × List String × List String :=
  if h : i < deps.length then
    let d := deps.get ⟨i, h⟩
    if (findNode nodes d).isNone then
      processDeps cfgName nodes (incorrect ++ [d]) (deps.erase d) (i + 1)
    else
      processDeps cfgName (addChild nodes d cfgName) incorrect deps (i + 1)
  else
    (nodes, incorrect, deps)
termination_by deps.length - i
decreasing_by
  · have hmem : deps.get ⟨i, h⟩ ∈ deps := List.get_mem deps i h
    have hlen : (deps.erase (deps.get ⟨i, h⟩)).length = deps.length - 1 :=
      List.length_erase_of_mem hmem
    omega
  · omega

/-- The linking loop of `Graph.build_links` over all configurations, threading
the shared node list and missing list and recording each configuration's
mutated dependency list. -/
def linkAll (nodes : List Node) (incorrect : List String) :
    List Configuration → List Node × List String × List Configuration
  | [] => (nodes, incorrect, [])
  | cfg :: rest =>
    let r1 := processDeps cfg.name nodes incorrect cfg.depends 0
    let r2 := linkAll r1.1 r1.2.1 rest
    (r2.1, r2.2.1, { cfg with depends := r1.2.2 } :: r2.2.2)

def unvisitedCount (names visited : List String) : Nat :=
  (names.filter (fun x => x ∉ visited)).length

theorem length_filter_and_le (l : List α) (p q : α → Bool) :
    (l.filter (fun x => p x && q x)).length ≤ (l.filter p).length := by
  induction l with
  | nil => simp
  | cons y ys ih =>
    simp only [List.filter_cons]
    cases hp : p y <;> cases hq : q y <;> simp [hp, hq] <;> omega

theorem length_filter_and_lt (l : List α) (p q : α → Bool) (c : α) (hc : c ∈ l)
    (hp : p c = true) (hq : q c = false) :
    (l.filter (fun x => p x && q x)).length < (l.filter p).length := by
  induction l with
  | nil => simp at hc
  | cons y ys ih =>
    simp only [List.filter_cons]
    rcases List.mem_cons.mp hc with rfl | hmem
    · have hle := length_filter_and_le ys p q
      simp [hp, hq]
      omega
    · cases hpy : p y <;> cases hqy : q y <;> simp [hpy, hqy] <;>
        have := ih hmem <;> omega

theorem mem_append_singleton_pred (visited : List String) (c x : String) :
    (decide (x ∉ visited ++ [c])) = ((decide (x ∉ visited)) && (decide (x ≠ c))) := by
  by_cases h1 : x ∈ visited <;> by_cases h2 : x = c <;> simp [h1, h2]

theorem unvisitedCount_append (names visited : List String) (c : String) :
    unvisitedCount names (visited ++ [c]) =
      (names.filter (fun x => (decide (x ∉ visited)) && (decide (x ≠ c)))).length := by
  unfold unvisitedCount
  congr 1
  refine List.filter_congr ?_
  intro x _
  exact mem_append_singleton_pred visited c x

theorem unvisitedCount_append_le (names visited : List String) (c : String) :
    unvisitedCount names (visited ++ [c]) ≤ unvisitedCount names visited := by
  rw [unvisitedCount_append]
  exact length_filter_and_le names _ _

theorem unvisitedCount_append_lt (names visited : List String) (c : String)
    (hc : c ∈ names) (hv : c ∉ visited) :
    unvisitedCount names (visited ++ [c]) < unvisitedCount names visited := by
  rw [unvisitedCount_append]
  exact length_filter_and_lt names _ _ c hc (by simpa using hv) (by simp)

theorem findNode_eq_none (ns : List Node) (x : String) (h : x ∉ ns.map Node.name) :
    findNode ns x = none := by
  unfold findNode
  rw [List.find?_eq_none]
  intro n hn
  simp only [decide_eq_true_eq]
  intro he
  exact h (List.mem_map.mpr ⟨n, hn, he⟩)

/-- `Graph._collect_all_nodes`: iterative DFS over the children edges with a
visited set, returning visited names in visit order (Python returns the node
objects; names identify them).  Python pops from the end of its stack list and
extends it with `children`; here the stack top is the head, so pushing
`children.reverse` yields the identical traversal. -/
def collectAllNodes (nodes : List Node) (stack visited : List String) : List String :=
  match stack with
  | [] => visited
  | current :: rest =>
    if current ∈ visited then collectAllNodes nodes rest visited
    else
      let children := ((findNode nodes current).map Node.children).getD []
      collectAllNodes nodes (children.reverse ++ rest) (visited ++ [current])
termination_by (unvisitedCount (nodes.map Node.name) visited, stack.length)
decreasing_by
  · apply Prod.Lex.right
    simp
  · by_cases hmem : current ∈ nodes.map Node.name
    · exact Prod.Lex.left _ _ (unvisitedCount_append_lt _ _ _ hmem (by assumption))
    · have h1 : findNode nodes current = none := findNode_eq_none _ _ hmem
      have h2 : unvisitedCount (nodes.map Node.name) (visited ++ [current]) ≤
          unvisitedCount (nodes.map Node.name) visited := unvisitedCount_append_le _ _ _
      rcases Nat.lt_or_ge (unvisitedCount (nodes.map Node.name) (visited ++ [current]))
          (unvisitedCount (nodes.map Node.name) visited) with hlt | hge
      · exact Prod.Lex.left _ _ hlt
      · have heq : unvisitedCount (nodes.map Node.name) (visited ++ [current]) =
            unvisitedCount (nodes.map Node.name) visited := le_antisymm h2 hge
        rw [heq]
        apply Prod.Lex.right
        simp [h1]

inductive GraphError where
  | missingBase
  | circularDependency (addon dep : String)
deriving Repr, DecidableEq

/-- The cycle check at the end of `Graph.build_links`: for every non-base node,
if the node reappears among the nodes reachable from one of its children, the
build fails (Python raises `ValueError` naming the addon and the child — the
spec's `CircularDependencyError`).  `findSome?` returns the first offending
pair, as Python raises at the first hit. -/
def checkCycles (nodes : List Node) : Except GraphError Unit :=
  match nodes.findSome? (fun n =>
    if n.name = base_addon then none
    else n.children.findSome? (fun c =>
      if n.name ∈ collectAllNodes nodes [c] [] then some (n.name, c) else none)) with
  | some p => .error (.circularDependency p.1 p.2)
  | none => .ok ()

structure GraphState where
  nodes : List Node
  incorrect : List String
  configs : List Configuration
deriving Repr

def findConfig (configs : List Configuration) (name : String) : Option Configuration :=
  configs.find? (fun c => c.name = name)

/-- `Graph.__init__` after configuration discovery (the filesystem walk is out
of scope; the discovered configurations, in discovery order, are the input).
Python raises `KeyError` when no base configuration exists
(`self._configurations[base_addon]`). -/
def buildGraph (configs : List Configuration) : Except GraphError GraphState :=
  match findConfig configs base_addon with
  | none => .error .missingBase
  | some baseCfg =>
    let nodes0 := buildNodes baseCfg configs
    let r := linkAll nodes0 [] configs
    match checkCycles r.1 with
    | .error e => .error e
    | .ok _ => .ok { nodes := r.1, incorrect := r.2.1, configs := r.2.2 }

/-- Python string comparison (lexicographic on code points). -/
def strLt : List Char → List Char → Bool
  | [], [] => false
  | [], _ :: _ => true
  | _ :: _, [] => false
  | a :: as, b :: bs =>
    if a.toNat < b.toNat then true
    else if b.toNat < a.toNat then false
    else strLt as bs

/-- `Graph._sort_all_nodes` as a boolean "key of `a` is at most key of `b`":
Python sorts ascending by the tuple `(factor, sequence, len(parents), name)`. -/
def keyLe (a b : Node) : Bool :=
  if a.factor < b.factor then true
  else if b.factor < a.factor then false
  else if a.sequence < b.sequence then true
  else if b.sequence < a.sequence then false
  else if a.parents.length < b.parents.length then true
  else if b.parents.length < a.parents.length then false
  else !(strLt b.name.data a.name.data)

/-- Stable insertion keeping the new element after every element it does not
strictly precede. -/
def insertAfterEq (le : α → α → Bool) : List α → α → List α
  | [], x => [x]
  | y :: ys, x => if le y x then y :: insertAfterEq le ys x else x :: y :: ys

/-- Python `sorted`: a stable ascending sort.  A stable sort is uniquely
determined by the (total, transitive) comparison, so stable insertion sort
agrees with CPython's sort. -/
def pythonSorted (le : α → α → Bool) (l : List α) : List α :=
  l.foldl (insertAfterEq le) []

/-- `Graph.order_configurations`: collect the nodes reachable from the base
node, sort them by `keyLe`, then rebuild each configuration with its
reverse-dependency list and its dependency list filtered to the surviving
ordered names. -/
def orderConfigurations (st : GraphState) : List Configuration :=
  let collectedNames := collectAllNodes st.nodes [base_addon] []
  let collectedNodes := collectedNames.filterMap (findNode st.nodes)
  let sortedNodes := pythonSorted keyLe collectedNodes
  let orderedNames := sortedNodes.map Node.name
  sortedNodes.filterMap (fun n =>
    (findConfig st.configs n.name).map (fun cfg =>
      { cfg with
        reversed_depends := n.children,
        depends := orderedNames.filter (fun m => m ∈ cfg.depends) }))

/-- `load_configurations` up to its ordered result: build the graph and order
the configurations; any graph error aborts with no order produced. -/
def loadOrder (configs : List Configuration) : Except GraphError (List Configuration) :=
  (buildGraph configs).map orderConfigurations

/-! ## Embedding of `master/core/registry.py`

Python classes are modeled as finite trees: a class value carries its
`__module__`, its `__name__`, its base classes and the names of the members it
defines itself.  Class identity (`is` / `==` on types) is modeled by structural
equality; distinct classes in a running program are structurally distinct here.
`object` is left implicit: a class with no bases plays the role of a root, and
Python's trailing `object` entry in every MRO carries no information for any
claim. -/

inductive PyClass where
  | mk (module : String) (name : String) (bases : List PyClass) (members : List String)

def PyClass.module : PyClass → String
  | .mk m _ _ _ => m

def PyClass.name : PyClass → String
  | .mk _ n _ _ => n

def PyClass.bases : PyClass → List PyClass
  | .mk _ _ b _ => b

def PyClass.members : PyClass → List String
  | .mk _ _ _ mem => mem

mutual
def pyBeq : PyClass → PyClass → Bool
  | .mk m1 n1 b1 mem1, .mk m2 n2 b2 mem2 =>
    m1 == m2 && n1 == n2 && pyBeqList b1 b2 && mem1 == mem2
def pyBeqList : List PyClass → List PyClass → Bool
  | [], [] => true
  | a :: as, b :: bs => pyBeq a b && pyBeqList as bs
  | _, _ => false
end

mutual
theorem pyBeq_iff : ∀ a b : PyClass, pyBeq a b = true ↔ a = b
  | .mk m1 n1 b1 mem1, .mk m2 n2 b2 mem2 => by
    simp only [pyBeq, Bool.and_eq_true, beq_iff_eq, PyClass.mk.injEq]
    constructor
    · rintro ⟨⟨⟨h1, h2⟩, h3⟩, h4⟩
      exact ⟨h1, h2, (pyBeqList_iff b1 b2).mp h3, h4⟩
    · rintro ⟨h1, h2, h3, h4⟩
      exact ⟨⟨⟨h1, h2⟩, (pyBeqList_iff b1 b2).mpr h3⟩, h4⟩
theorem pyBeqList_iff : ∀ a b : List PyClass, pyBeqList a b = true ↔ a = b
  | [], [] => by simp [pyBeqList]
  | a :: as, b :: bs => by
    simp only [pyBeqList, Bool.and_eq_true, List.cons.injEq]
    exact and_congr (pyBeq_iff a b) (pyBeqList_iff as bs)
  | [], _ :: _ => by simp [pyBeqList]
  | _ :: _, [] => by simp [pyBeqList]
end

instance : DecidableEq PyClass := fun a b =>
  decidable_of_iff (pyBeq a b = true) (pyBeq_iff a b)

mutual
/-- Python `issubclass`: reflexive-transitive closure of the bases relation. -/
def PyClass.isSubclassOf : PyClass → PyClass → Bool
  | .mk m n bs mem, d => decide (PyClass.mk m n bs mem = d) || anySubclassOf bs d
def anySubclassOf : List PyClass → PyClass → Bool
  | [], _ => false
  | b :: bs, d => b.isSubclassOf d || anySubclassOf bs d
end

/-- One step of the C3 linearization (CPython `mro` merge): the first head that
occurs in no tail is selected; if none exists the hierarchy cannot be
linearized and Python raises `TypeError`, modeled as `none`.  The fuel is an
upper bound on the number of selections; `mro` always calls it with more fuel
than the total number of entries, which is enough because every selection
removes at least one entry. -/
def c3Merge : Nat → List (List PyClass) → Option (List PyClass)
  | 0, _ => none
  | fuel + 1, seqs =>
    let live := seqs.filter (fun s => s ≠ [])
    if live = [] then some []
    else
      match live.findSome? (fun s =>
        match s with
        | [] => none
        | h :: _ => if live.all (fun s2 => h ∉ s2.tail) then some h else none) with
      | none => none
      | some h =>
        (c3Merge fuel (live.map (fun s => if s.head? = some h then s.tail else s))).map
          (fun rest => h :: rest)

mutual
/-- Python's MRO (C3 linearization): `L(C) = C :: merge(L(B1), ..., L(Bn),
[B1, ..., Bn])`; `none` models the `TypeError` for an unlinearizable
hierarchy. -/
def PyClass.mro : PyClass → Option (List PyClass)
  | .mk m n bs mem =>
    match mroList bs with
    | none => none
    | some ls =>
      match c3Merge ((ls.map List.length).sum + bs.length + 1) (ls ++ [bs]) with
      | none => none
      | some merged => some (.mk m n bs mem :: merged)
def mroList : List PyClass → Option (List (List PyClass))
  | [] => some []
  | b :: bs =>
    match b.mro, mroList bs with
    | some l, some ls => some (l :: ls)
    | _, _ => none
end

/-- Python `type(name, bases, {})` as used by `create_merged_class`: class
creation fails (`TypeError`) on a duplicate base or when the MRO cannot be
linearized.  The created class lives in `master.core.registry` (the module
that calls `type`) and introduces no members of its own. -/
def pyType (name : String) (bases : List PyClass) : Option PyClass :=
  if bases.Nodup then
    let c : PyClass := .mk "master.core.registry" name bases []
    match c.mro with
    | some _ => some c
    | none => none
  else none

/-- Attribute lookup on a class: the first class along the MRO defining the
member is the provider (its `__module__.__name__` is returned). -/
def attrProvider (c : PyClass) (member : String) : Option String :=
  match c.mro with
  | none => none
  | some l =>
    (l.find? (fun k => member ∈ k.members)).map (fun k => k.module ++ "." ++ k.name)

def splitDotAux : List Char → List Char → List String
  | [], acc => [⟨acc.reverse⟩]
  | c :: rest, acc =>
    if c = '.' then ⟨acc.reverse⟩ :: splitDotAux rest [] else splitDotAux rest (c :: acc)

/-- Python `s.split('.')`. -/
def splitDot (s : String) : List String := splitDotAux s.data []

/-- `ModuleClassRegistry._extract_module_name`: classes whose module path lies
under `master.addons.` belong to that addon; everything else is core (`"_"`).
The index-2 component always exists when the prefix matches, so `getD` is
exact. -/
def extractModuleName (c : PyClass) : String :=
  if "master.addons.".data.isPrefixOf c.module.data then (splitDot c.module).getD 2 ""
  else "_"

/-- `ModuleClassRegistry`: per-module buckets plus core bucket.  The
`defaultdict` is an association list in insertion order; a missing key reads
as `[]`. -/
structure ModuleClassRegistry where
  module_classes : List (String × List PyClass)
  core_classes : List PyClass
deriving DecidableEq

def emptyMCR : ModuleClassRegistry := { module_classes := [], core_classes := [] }

def bucketOf (reg : ModuleClassRegistry) (m : String) : List PyClass :=
  ((reg.module_classes.find? (fun p => p.1 = m)).map Prod.snd).getD []

def setBucket (reg : ModuleClassRegistry) (m : String) (l : List PyClass) :
    ModuleClassRegistry :=
  if (reg.module_classes.find? (fun p => p.1 = m)).isSome then
    { reg with module_classes := reg.module_classes.map (fun p => if p.1 = m then (m, l) else p) }
  else
    { reg with module_classes := reg.module_classes ++ [(m, l)] }

/-- `ModuleClassRegistry.register_class`: `insert(0, cls)` into the owning
module's bucket, or into the core bucket for `"_"`. -/
def registerClassMCR (reg : ModuleClassRegistry) (c : PyClass) : ModuleClassRegistry :=
  let m := extractModuleName c
  if m = "_" then { reg with core_classes := c :: reg.core_classes }
  else setBucket reg m (c :: bucketOf reg m)

/-- `first_mro_before(cls, element)`: the entry of `cls.__mro__` directly
before `element`, as `module.name`, or `None` when `element` is absent or
`cls` is `element` itself. -/
def firstMroBefore (c elem : PyClass) : Option String :=
  match c.mro with
  | none => none
  | some mro =>
    match mro.indexOf? elem with
    | none => none
    | some idx =>
      if h : 1 ≤ idx ∧ idx - 1 < mro.length then
        let k := mro.get ⟨idx - 1, h.2⟩
        some (k.module ++ "." ++ k.name)
      else none

/-- The `BaseClass` defined in `master/core/registry.py` (its implicit `object`
base is elided, see the note on `PyClass`). -/
def baseClassPy : PyClass := .mk "master.core.registry" "BaseClass" [] []

/-- `BaseClass.__meta__`: the fully-qualified name of the MRO entry directly
before `BaseClass` — the root abstraction class the variant extends. -/
def pyMeta (c : PyClass) : Option String := firstMroBefore c baseClassPy

/-- `ClassManager._registry`: abstraction id → `ModuleClassRegistry`, an
insertion-ordered dict. -/
abbrev CMRegistry := List (String × ModuleClassRegistry)

def findMCR (reg : CMRegistry) (meta : String) : Option ModuleClassRegistry :=
  ((reg.find? (fun p => p.1 = meta)).map Prod.snd)

/-- `ClassManager.register_class` (the `_before_register`/`_after_register`
hooks are no-ops for classes that do not define them and are elided): when the
class has a truthy `__meta__`, create the meta's registry on first use and
register the class into it; otherwise do nothing. -/
def registerClassCM (reg : CMRegistry) (c : PyClass) : CMRegistry :=
  match pyMeta c with
  | none => reg
  | some meta =>
    if (reg.find? (fun p => p.1 = meta)).isSome then
      reg.map (fun p => if p.1 = meta then (meta, registerClassMCR p.2 c) else p)
    else
      reg ++ [(meta, registerClassMCR emptyMCR c)]

/-- The candidate-gathering step of `ClassManager.filter_unique_classes`: each
listed module's bucket in the given module order, then the core bucket. -/
def gatherAllClasses (modules : List String) (reg : ModuleClassRegistry) : List PyClass :=
  (modules.flatMap (fun m => bucketOf reg m)) ++ reg.core_classes

/-- `ClassManager.filter_unique_classes`: gather the candidates, then drop
every class that has a proper subclass among them (`other != cls` is identity,
i.e. structural inequality here). -/
def filterUniqueClasses (modules : List String) (reg : ModuleClassRegistry) :
    List PyClass :=
  let all_classes := gatherAllClasses modules reg
  all_classes.filter (fun c =>
    !(all_classes.any (fun other => other ≠ c && other.isSubclassOf c)))

/-- The body of the compile loop in `ClassManager.__init__` for one meta: a
single surviving candidate is used as-is, several are merged via
`create_merged_class` (`"_Merged" + meta.split(".")[-1]`); `none` models the
caught exception. -/
def synthesize (meta : String) (filtered : List PyClass) : Option PyClass :=
  if filtered.length = 1 then filtered.head?
  else pyType ("_Merged" ++ ((splitDot meta).getLast?.getD "")) filtered

/-- `ClassManager.__init__`: walk the registry in insertion order; skip metas
whose filtered candidate list is empty; a meta whose synthesis raises is
logged and skipped (the `except` branch), every other meta is published.  (The
`if not registry` branch in the source is dead: a plain object is always
truthy.) -/
def classManagerInit (modules : List String) : CMRegistry → List (String × PyClass)
  | [] => []
  | (meta, reg) :: rest =>
    let filtered := filterUniqueClasses modules reg
    if filtered.isEmpty then classManagerInit modules rest
    else
      match synthesize meta filtered with
      | some c => (meta, c) :: classManagerInit modules rest
      | none => classManagerInit modules rest

inductive PyError where
  | keyError
  | valueError
deriving Repr, DecidableEq

/-- `ClassManager.__getitem__`: a dict lookup; a missing key raises
`KeyError`. -/
def getItem (classes : List (String × PyClass)) (item : String) : Except PyError PyClass :=
  match classes.find? (fun p => p.1 = item) with
  | some p => .ok p.2
  | none => .error .keyError

/-- Modelled from the spec: `default_installed_modules`, the installed-module
list handed to `ClassManager`, is imported by `master/core/server.py` but its
definition is missing from the sources; per the spec the composition compiler
iterates installed modules in reverse load order (most-dependent first), so the
modules iterable is the reverse of the load order. -/
def installedModulesReversed (loadOrderNames : List String) : List String :=
  loadOrderNames.reverse

/-! ## Embedding of `master/tools/norms.py` and `BaseClass.__init_subclass__` -/

def isAsciiLetter (c : Char) : Bool :=
  (decide ('A' ≤ c) && decide (c ≤ 'Z')) || (decide ('a' ≤ c) && decide (c ≤ 'z'))

/-- Full match of the regex `_?[A-Za-z]+`. -/
def matchClassPattern : List Char → Bool
  | '_' :: rest => !rest.isEmpty && rest.all isAsciiLetter
  | cs => !cs.isEmpty && cs.all isAsciiLetter

/-- `is_class_norm_compliant`: `bool(re.match(r"^_?[A-Za-z]+$", name))`.  In
Python `$` also matches just before a newline that ends the string, so one
trailing newline is tolerated. -/
def is_class_norm_compliant (s : String) : Bool :=
  let cs := s.data
  matchClassPattern (if cs.getLast? = some '\n' then cs.dropLast else cs)

/-- The claim's wording for the class-name norm: an optional single leading
underscore followed by one or more letters, and nothing else. -/
def specClassNorm (s : String) : Bool :=
  let core := if s.data.head? = some '_' then s.data.tail else s.data
  !core.isEmpty && core.all isAsciiLetter

/-- `BaseClass.__init_subclass__` with the registry state made explicit: a
norm violation raises `ValueError` before `ClassManager.register_class` runs;
otherwise the class is registered. -/
def initSubclass (reg : CMRegistry) (c : PyClass) : Except PyError CMRegistry :=
  if is_class_norm_compliant c.name then .ok (registerClassCM reg c)
  else .error .valueError

/-! ## Harness definitions and concrete fixtures used by the claims -/

/-- A sequence of `register_class` calls against one abstraction id's
registry, in program order. -/
def registerAll (reg : ModuleClassRegistry) (events : List PyClass) : ModuleClassRegistry :=
  events.foldl registerClassMCR reg

/-- The bucket a class registers into: the core bucket for core-owned classes,
the owning module's bucket otherwise. -/
def ownBucket (reg : ModuleClassRegistry) (c : PyClass) : List PyClass :=
  if extractModuleName c = "_" then reg.core_classes else bucketOf reg (extractModuleName c)

/-- Core-owned root abstraction class `UserManager` (directly below
`BaseClass`, so `__meta__` of every subclass is its qualified name). -/
def RootUM : PyClass := .mk "master.core.svc" "UserManager" [baseClassPy] []

/-- Base module `crmbase`'s variant of the `UserManager` abstraction. -/
def XB : PyClass := .mk "master.addons.crmbase.managers" "UserManager" [RootUM] ["create"]

/-- Dependent module `crmext`'s variant of the `UserManager` abstraction
(`crmext` depends on `crmbase` and is loaded after it). -/
def XD : PyClass := .mk "master.addons.crmext.managers" "UserManager" [RootUM] ["create"]

/-- A second variant owned by the same module as `XB`, registered after it. -/
def XB2 : PyClass := .mk "master.addons.crmbase.other" "UserManagerB" [RootUM] []

/-- The `ClassManager._registry` state after `core`, `crmbase` and `crmext`
code was imported in load order. -/
def regBD : CMRegistry := registerClassCM (registerClassCM (registerClassCM [] RootUM) XB) XD

def Pc : PyClass := .mk "m" "P" [] []

def Qc : PyClass := .mk "m" "Q" [] []

/-- A variant placing `Pc` before `Qc` among its ancestors. -/
def X1 : PyClass := .mk "master.addons.m1.a" "X" [Pc, Qc] []

/-- A variant placing `Qc` before `Pc` — contradicting `X1`'s precedence, so
the two cannot be linearized into one composition. -/
def X2 : PyClass := .mk "master.addons.m1.b" "Y" [Qc, Pc] []

def Y1 : PyClass := .mk "master.addons.m1.c" "Z" [] []

/-- A registry with one unlinearizable abstraction id (`meta.one`) and one
healthy abstraction id (`meta.two`). -/
def regConflict : CMRegistry := [("meta.one", ⟨[("m1", [X1, X2])], []⟩), ("meta.two", ⟨[("m1", [Y1])], []⟩)]

/-! ## Claims C1, C5, C6, C8 — dependency graph bugs and validation -/

/-- C1: the claim says every module is placed strictly after all of its
transitive dependencies for every acyclic input.  The code violates this:
`Node.add_child` adds the parent's *current* factor to the child, so a factor
accumulated by a dependency after the link was made is never propagated.  For
the acyclic input base, a→b, b→c, c (in that discovery order) the produced
order is `[base, c, a, b]`: module `a` is placed before its direct (and hence
transitive) dependency `b`.  The second conjunct records that `b` is indeed in
`a`'s validated dependency list. -/
theorem C1_acyclic_order_violation :
    (loadOrder [mkConfiguration "base" [] none,
                mkConfiguration "a" ["b"] none,
                mkConfiguration "b" ["c"] none,
                mkConfiguration "c" [] none]).map (List.map Configuration.name) =
      .ok ["base", "c", "a", "b"] ∧
    "b" ∈ (mkConfiguration "a" ["b"] none).depends := by
  constructor
  · simp [loadOrder, buildGraph, mkConfiguration, pyStrip, isPySpace, findConfig,
      List.find?, buildNodes, mkNode, findNode, linkAll, processDeps, addChild,
      checkCycles, collectAllNodes, orderConfigurations, pythonSorted, insertAfterEq,
      keyLe, strLt, base_addon, List.findSome?, List.foldl, Except.map]
  · simp [mkConfiguration, pyStrip, isPySpace, base_addon]

/-- C5: the claim says every declared dependency of every descriptor is
processed during linking — unknown ones recorded as missing, known ones linked
as edges.  The code violates this: `build_links` calls `list.remove` on the
very list the `for` loop is iterating, so the dependency immediately following
a missing one is silently skipped.  For `x` declaring `["ghost", "y"]` (with
`y` a real module), the known dependency `y` is never linked: `y`'s node ends
with no children, while `"y"` still sits in `x`'s final dependency list, and
the produced order even places `x` before `y`. -/
theorem C5_removed_dep_skips_successor :
    (buildGraph [mkConfiguration "base" [] none,
                 mkConfiguration "x" ["ghost", "y"] none,
                 mkConfiguration "y" [] none]).map
        (fun st => (findNode st.nodes "y", st.incorrect)) =
      .ok (some ⟨"y", 16, 20, [], ["base"]⟩, ["ghost"]) ∧
    (loadOrder [mkConfiguration "base" [] none,
                mkConfiguration "x" ["ghost", "y"] none,
                mkConfiguration "y" [] none]).map
        (List.map (fun c => (c.name, c.depends))) =
      .ok [("base", []), ("x", ["base", "y"]), ("y", ["base"])] := by
  constructor
  · simp [buildGraph, mkConfiguration, pyStrip, isPySpace, findConfig, List.find?,
      buildNodes, mkNode, findNode, linkAll, processDeps, addChild, checkCycles,
      collectAllNodes, base_addon, List.findSome?, List.foldl, Except.map]
  · simp [loadOrder, buildGraph, mkConfiguration, pyStrip, isPySpace, findConfig,
      List.find?, buildNodes, mkNode, findNode, linkAll, processDeps, addChild,
      checkCycles, collectAllNodes, orderConfigurations, pythonSorted, insertAfterEq,
      keyLe, strLt, base_addon, List.findSome?, List.foldl, Except.map]

/-- C6: the claim says every input whose dependency edges contain a cycle among
non-base modules fails with the circular-dependency error and produces no
order.  The code violates this: the same iteration-with-removal slip of C5 can
drop a real edge of the cycle before the cycle check runs.  Here `a` declares
`["ghost", "b"]` and `b` declares `["a"]` — a dependency cycle between the
non-base modules `a` and `b` — yet the build succeeds and publishes the total
order `[base, a, b]`.  The last two conjuncts record the cycle in the
validated dependency lists. -/
theorem C6_cycle_escapes_detection :
    (loadOrder [mkConfiguration "base" [] none,
                mkConfiguration "a" ["ghost", "b"] none,
                mkConfiguration "b" ["a"] none]).map (List.map Configuration.name) =
      .ok ["base", "a", "b"] ∧
    "b" ∈ (mkConfiguration "a" ["ghost", "b"] none).depends ∧
    "a" ∈ (mkConfiguration "b" ["a"] none).depends := by
  refine ⟨?_, ?_, ?_⟩
  · simp [loadOrder, buildGraph, mkConfiguration, pyStrip, isPySpace, findConfig,
      List.find?, buildNodes, mkNode, findNode, linkAll, processDeps, addChild,
      checkCycles, collectAllNodes, orderConfigurations, pythonSorted, insertAfterEq,
      keyLe, strLt, base_addon, List.findSome?, List.foldl, Except.map]
  · simp [mkConfiguration, pyStrip, isPySpace, base_addon]
  · simp [mkConfiguration, pyStrip, isPySpace, base_addon]

/-- C8 counterexample: validation neither dedupes the dependency list nor
removes the descriptor's own name.  Declaring `["b", "b"]` keeps both
occurrences, and `"a"` declaring `["a"]` keeps the self-reference. -/
theorem C8_counterexample :
    (mkConfiguration "a" ["b", "b"] none).depends = ["base", "b", "b"] ∧
    (mkConfiguration "a" ["a"] none).depends = ["base", "a"] := by
  constructor <;> rfl

/-- C8 amended: after validation the dependency list is the declared list with
empty entries dropped and entries stripped, with the base addon prepended for a
non-base descriptor when absent, and forced empty for the base descriptor —
duplicates and self-references are not removed. -/
theorem C8_depends_characterization (name : String) (depends : List String)
    (seq : Option Int) :
    (mkConfiguration name depends seq).depends =
      if name = base_addon then []
      else if base_addon ∈ (depends.filter (fun s => s ≠ "")).map pyStrip then
        (depends.filter (fun s => s ≠ "")).map pyStrip
      else base_addon :: (depends.filter (fun s => s ≠ "")).map pyStrip := by
  have hmk : (mkConfiguration name depends seq).depends =
      (if name = base_addon then []
       else if name ≠ base_addon ∧ base_addon ∉ (depends.filter (fun s => s ≠ "")).map pyStrip
         then base_addon :: (depends.filter (fun s => s ≠ "")).map pyStrip
         else (depends.filter (fun s => s ≠ "")).map pyStrip) := rfl
  rw [hmk]
  by_cases h : name = base_addon
  · rw [if_pos h, if_pos h]
  · rw [if_neg h, if_neg h]
    by_cases h2 : base_addon ∈ (depends.filter (fun s => s ≠ "")).map pyStrip
    · rw [if_neg (fun hand => hand.2 h2), if_pos h2]
    · rw [if_pos ⟨h, h2⟩, if_neg h2]

/-! ## Registry lemmas -/

theorem core_setBucket (reg : ModuleClassRegistry) (m : String) (l : List PyClass) :
    (setBucket reg m l).core_classes = reg.core_classes := by
  unfold setBucket
  split <;> rfl

theorem find?_map_keyed (l : List (String × List PyClass)) (m : String)
    (lnew : List PyClass) (h : (l.find? (fun p => p.1 = m)).isSome) :
    ((l.map (fun p => if p.1 = m then (m, lnew) else p)).find? (fun p => p.1 = m)) =
      some (m, lnew) := by
  induction l with
  | nil => simp at h
  | cons q rest ih =>
    by_cases hq : q.1 = m
    · rw [List.map_cons, if_pos hq]
      exact List.find?_cons_of_pos _ (by simp)
    · rw [List.find?_cons_of_neg _ (by simpa using hq)] at h
      rw [List.map_cons, if_neg hq, List.find?_cons_of_neg _ (by simpa using hq)]
      exact ih h

theorem find?_map_keyed_other (l : List (String × List PyClass)) (m m2 : String)
    (lnew : List PyClass) (h : m2 ≠ m) :
    ((l.map (fun p => if p.1 = m then (m, lnew) else p)).find? (fun p => p.1 = m2)) =
      l.find? (fun p => p.1 = m2) := by
  induction l with
  | nil => rfl
  | cons q rest ih =>
    by_cases hq : q.1 = m
    · have h2 : ¬(q.1 = m2) := fun he => h ((hq ▸ he : m = m2)).symm
      rw [List.map_cons, if_pos hq, List.find?_cons_of_neg _ (by simpa using fun he => h he.symm),
        List.find?_cons_of_neg _ (by simpa using h2)]
      exact ih
    · rw [List.map_cons, if_neg hq]
      by_cases hq2 : q.1 = m2
      · rw [List.find?_cons_of_pos _ (by simpa using hq2),
          List.find?_cons_of_pos _ (by simpa using hq2)]
      · rw [List.find?_cons_of_neg _ (by simpa using hq2),
          List.find?_cons_of_neg _ (by simpa using hq2)]
        exact ih

theorem find?_append_first_none {α : Type} (l1 l2 : List α) (p : α → Bool)
    (h : l1.find? p = none) : (l1 ++ l2).find? p = l2.find? p := by
  induction l1 with
  | nil => rfl
  | cons x xs ih =>
    cases hp : p x with
    | true =>
      rw [List.find?_cons_of_pos _ hp] at h
      exact absurd h (by simp)
    | false =>
      rw [List.find?_cons_of_neg _ (by simp [hp])] at h
      rw [List.cons_append, List.find?_cons_of_neg _ (by simp [hp])]
      exact ih h

theorem find?_append_first_some {α : Type} (l1 l2 : List α) (p : α → Bool) (a : α)
    (h : l1.find? p = some a) : (l1 ++ l2).find? p = some a := by
  induction l1 with
  | nil => simp at h
  | cons x xs ih =>
    cases hp : p x with
    | true =>
      rw [List.find?_cons_of_pos _ hp] at h
      rw [List.cons_append, List.find?_cons_of_pos _ hp]
      exact h
    | false =>
      rw [List.find?_cons_of_neg _ (by simp [hp])] at h
      rw [List.cons_append, List.find?_cons_of_neg _ (by simp [hp])]
      exact ih h

theorem bucketOf_setBucket_self (reg : ModuleClassRegistry) (m : String)
    (l : List PyClass) : bucketOf (setBucket reg m l) m = l := by
  obtain ⟨mc, cc⟩ := reg
  by_cases h : (mc.find? (fun p => p.1 = m)).isSome
  · simp only [setBucket, bucketOf, if_pos h]
    rw [find?_map_keyed _ _ _ h]
    rfl
  · simp only [setBucket, bucketOf, if_neg h]
    rw [find?_append_first_none _ _ _ (Option.not_isSome_iff_eq_none.mp h)]
    rw [List.find?_cons_of_pos _ (by simp)]
    rfl

theorem bucketOf_setBucket_other (reg : ModuleClassRegistry) (m m2 : String)
    (l : List PyClass) (h : m2 ≠ m) :
    bucketOf (setBucket reg m l) m2 = bucketOf reg m2 := by
  obtain ⟨mc, cc⟩ := reg
  by_cases hs : (mc.find? (fun p => p.1 = m)).isSome
  · simp only [setBucket, bucketOf, if_pos hs]
    rw [find?_map_keyed_other _ _ _ _ h]
  · simp only [setBucket, bucketOf, if_neg hs]
    cases hf : mc.find? (fun p => p.1 = m2) with
    | some q => rw [find?_append_first_some _ _ _ _ hf]
    | none =>
      rw [find?_append_first_none _ _ _ hf]
      have hsingle : (List.find? (fun p => decide (p.1 = m2)) [(m, l)]) = none :=
        List.find?_cons_of_neg _ (by simpa using fun he => h he.symm)
      rw [hsingle]

theorem registerMCR_core (reg : ModuleClassRegistry) (c : PyClass) :
    (registerClassMCR reg c).core_classes =
      if extractModuleName c = "_" then c :: reg.core_classes else reg.core_classes := by
  unfold registerClassMCR
  by_cases h : extractModuleName c = "_" <;> simp [h, core_setBucket]

theorem registerMCR_bucket_own (reg : ModuleClassRegistry) (c : PyClass)
    (h : extractModuleName c ≠ "_") :
    bucketOf (registerClassMCR reg c) (extractModuleName c) =
      c :: bucketOf reg (extractModuleName c) := by
  unfold registerClassMCR
  simp only [if_neg h]
  exact bucketOf_setBucket_self _ _ _

theorem registerMCR_bucket_other (reg : ModuleClassRegistry) (c : PyClass) (m : String)
    (h : m ≠ extractModuleName c) :
    bucketOf (registerClassMCR reg c) m = bucketOf reg m := by
  unfold registerClassMCR
  by_cases h2 : extractModuleName c = "_"
  · rw [if_pos h2]
    rfl
  · rw [if_neg h2]
    exact bucketOf_setBucket_other _ _ _ _ h

theorem registerAll_core (events : List PyClass) :
    ∀ reg : ModuleClassRegistry, (registerAll reg events).core_classes =
      ((events.filter (fun c => extractModuleName c = "_")).reverse) ++ reg.core_classes := by
  induction events with
  | nil => intro reg; simp [registerAll]
  | cons e es ih =>
    intro reg
    show (registerAll (registerClassMCR reg e) es).core_classes = _
    rw [ih (registerClassMCR reg e), registerMCR_core]
    by_cases h : extractModuleName e = "_" <;> simp [h, List.filter_cons]

theorem registerAll_bucket (events : List PyClass) (m : String) (hm : m ≠ "_") :
    ∀ reg : ModuleClassRegistry, bucketOf (registerAll reg events) m =
      ((events.filter (fun c => extractModuleName c = m)).reverse) ++ bucketOf reg m := by
  induction events with
  | nil => intro reg; simp [registerAll]
  | cons e es ih =>
    intro reg
    show bucketOf (registerAll (registerClassMCR reg e) es) m = _
    rw [ih (registerClassMCR reg e)]
    by_cases h : extractModuleName e = m
    · have hb := registerMCR_bucket_own reg e (by rw [h]; exact hm)
      rw [h] at hb
      rw [hb]
      simp [List.filter_cons, h]
    · rw [registerMCR_bucket_other reg e m (fun he => h he.symm)]
      simp [List.filter_cons, h]

theorem bucketOf_empty (m : String) : bucketOf emptyMCR m = [] := rfl

theorem gather_registerAll (names : List String) (events : List PyClass)
    (hm : "_" ∉ names) :
    gatherAllClasses (installedModulesReversed names) (registerAll emptyMCR events) =
      ((names.reverse).flatMap
          (fun m => (events.filter (fun c => extractModuleName c = m)).reverse)) ++
        (events.filter (fun c => extractModuleName c = "_")).reverse := by
  unfold gatherAllClasses installedModulesReversed
  rw [registerAll_core]
  have hrev : "_" ∉ names.reverse := by simpa using hm
  have hflat : ∀ l : List String, "_" ∉ l →
      (l.flatMap (fun m => bucketOf (registerAll emptyMCR events) m)) =
        l.flatMap (fun m => (events.filter (fun c => extractModuleName c = m)).reverse) := by
    intro l hl
    induction l with
    | nil => rfl
    | cons x xs ihl =>
      simp only [List.flatMap_cons]
      rw [registerAll_bucket events x (fun he => hl (he ▸ List.mem_cons_self x xs)),
        bucketOf_empty, List.append_nil,
        ihl (fun hmem => hl (List.mem_cons_of_mem x hmem))]
  rw [hflat _ hrev]
  simp [emptyMCR]

/-! ## ClassManager compile-pass lemmas -/

theorem cmInit_keys_sublist (modules : List String) (registry : CMRegistry) :
    List.Sublist ((classManagerInit modules registry).map Prod.fst) (registry.map Prod.fst) := by
  induction registry with
  | nil => simp [classManagerInit]
  | cons p rest ih =>
    obtain ⟨meta, reg⟩ := p
    show List.Sublist ((classManagerInit modules ((meta, reg) :: rest)).map Prod.fst) _
    unfold classManagerInit
    by_cases h : (filterUniqueClasses modules reg).isEmpty
    · rw [if_pos h]
      exact ih.trans (List.sublist_cons_self _ _)
    · rw [if_neg h]
      cases hs : synthesize meta (filterUniqueClasses modules reg) with
      | none => exact ih.trans (List.sublist_cons_self _ _)
      | some c =>
        simp only [List.map_cons]
        exact ih.cons₂ meta

theorem cmInit_absent (modules : List String) (registry : CMRegistry)
    (hkeys : (registry.map Prod.fst).Nodup) (meta : String) (reg : ModuleClassRegistry)
    (hmem : (meta, reg) ∈ registry)
    (hfail : (filterUniqueClasses modules reg).isEmpty ∨
      synthesize meta (filterUniqueClasses modules reg) = none) :
    meta ∉ (classManagerInit modules registry).map Prod.fst := by
  induction registry with
  | nil => simp at hmem
  | cons p rest ih =>
    obtain ⟨meta0, reg0⟩ := p
    have hk : meta0 ∉ (rest.map Prod.fst) ∧ (rest.map Prod.fst).Nodup := by
      simpa [List.nodup_cons] using hkeys
    rcases List.mem_cons.mp hmem with heq | hmem2
    · obtain ⟨h1, h2⟩ := Prod.mk.inj heq
      subst h1
      subst h2
      have habs : meta ∉ (classManagerInit modules rest).map Prod.fst := by
        intro hcontra
        exact hk.1 ((cmInit_keys_sublist modules rest).mem hcontra)
      unfold classManagerInit
      rcases hfail with hempty | hnone
      · rw [if_pos hempty]
        exact habs
      · by_cases hempty : (filterUniqueClasses modules reg).isEmpty
        · rw [if_pos hempty]
          exact habs
        · rw [if_neg hempty, hnone]
          exact habs
    · have hne : meta0 ≠ meta := by
        intro he
        exact hk.1 (he ▸ (List.mem_map.mpr ⟨(meta, reg), hmem2, rfl⟩))
      have ihr := ih hk.2 hmem2
      unfold classManagerInit
      by_cases hempty : (filterUniqueClasses modules reg0).isEmpty
      · rw [if_pos hempty]
        exact ihr
      · rw [if_neg hempty]
        cases hs : synthesize meta0 (filterUniqueClasses modules reg0) with
        | none => exact ihr
        | some c =>
          simp only [List.map_cons, List.mem_cons]
          rintro (he | hc)
          · exact hne he.symm
          · exact ihr hc

theorem cmInit_present (modules : List String) (registry : CMRegistry)
    (meta : String) (reg : ModuleClassRegistry) (c : PyClass)
    (hmem : (meta, reg) ∈ registry)
    (hne : ¬(filterUniqueClasses modules reg).isEmpty)
    (hs : synthesize meta (filterUniqueClasses modules reg) = some c) :
    (meta, c) ∈ classManagerInit modules registry := by
  induction registry with
  | nil => simp at hmem
  | cons p rest ih =>
    obtain ⟨meta0, reg0⟩ := p
    rcases List.mem_cons.mp hmem with heq | hmem2
    · obtain ⟨h1, h2⟩ := Prod.mk.inj heq
      subst h1; subst h2
      unfold classManagerInit
      rw [if_neg hne, hs]
      exact List.mem_cons_self _ _
    · have ihr := ih hmem2
      unfold classManagerInit
      by_cases hempty : (filterUniqueClasses modules reg0).isEmpty
      · rw [if_pos hempty]; exact ihr
      · rw [if_neg hempty]
        cases hs0 : synthesize meta0 (filterUniqueClasses modules reg0) with
        | none => exact ihr
        | some c0 => exact List.mem_cons_of_mem _ ihr

theorem assoc_find?_of_nodup (l : List (String × PyClass)) (k : String) (v : PyClass)
    (hnodup : (l.map Prod.fst).Nodup) (hmem : (k, v) ∈ l) :
    l.find? (fun p => p.1 = k) = some (k, v) := by
  induction l with
  | nil => simp at hmem
  | cons p rest ih =>
    rw [List.map_cons, List.nodup_cons] at hnodup
    rcases List.mem_cons.mp hmem with heq | hmem2
    · subst heq
      exact List.find?_cons_of_pos _ (by simp)
    · have hne : p.1 ≠ k := by
        intro he
        exact hnodup.1 (he ▸ (List.mem_map.mpr ⟨(k, v), hmem2, rfl⟩))
      rw [List.find?_cons_of_neg _ (by simpa using hne)]
      exact ih hnodup.2 hmem2

theorem assoc_find?_none (l : List (String × PyClass)) (k : String)
    (h : k ∉ l.map Prod.fst) : l.find? (fun p => p.1 = k) = none := by
  rw [List.find?_eq_none]
  intro p hp
  simp only [decide_eq_true_eq]
  intro he
  exact h (List.mem_map.mpr ⟨p, hp, he⟩)

/-! ## Norm lemmas -/

theorem matchClassPattern_head (cs : List Char) :
    matchClassPattern cs =
      (!(if cs.head? = some '_' then cs.tail else cs).isEmpty &&
        (if cs.head? = some '_' then cs.tail else cs).all isAsciiLetter) := by
  rcases cs with _ | ⟨c, r⟩
  · rfl
  · by_cases hc : c = '_'
    · subst hc
      rfl
    · have harm : matchClassPattern (c :: r) = (!(c :: r).isEmpty && (c :: r).all isAsciiLetter) := by
        unfold matchClassPattern
        split
        · next heq =>
          exact absurd (List.head_eq_of_cons_eq heq.symm).symm hc
        · rfl
      rw [harm]
      have hh : ¬((c :: r).head? = some '_') := by
        simp [hc]
      rw [if_neg hh]

theorem is_class_norm_eq_spec (s : String) (h : '\n' ∉ s.data) :
    is_class_norm_compliant s = specClassNorm s := by
  simp only [is_class_norm_compliant, specClassNorm]
  have hlast : ¬(s.data.getLast? = some '\n') := by
    intro hl
    exact h (List.mem_of_getLast?_eq_some hl)
  rw [if_neg hlast]
  exact matchClassPattern_head s.data

/-! ## Claims C2, C3, C4, C9, C10 — registry and composition compiler -/

/-- C2 counterexample: the claim says a compile pass is all-or-nothing and a
composition conflict makes the whole pass fail fatally with no partial
registry published.  The code instead catches the exception per abstraction id
(`except Exception ... logger.error`) and keeps going: here `meta.one`'s two
candidates impose contradictory precedence (`X1` has bases `[Pc, Qc]`, `X2`
has `[Qc, Pc]`), its synthesis fails, yet construction completes and publishes
a registry containing only the healthy `meta.two`. -/
theorem C2_counterexample :
    filterUniqueClasses ["m1"] ⟨[("m1", [X1, X2])], []⟩ = [X1, X2] ∧
    synthesize "meta.one" [X1, X2] = none ∧
    classManagerInit ["m1"] regConflict = [("meta.two", Y1)] :=
  ⟨by decide, by decide, by decide⟩

/-- C2 amended: a compile pass is not atomic; each abstraction id compiles in
isolation.  An id whose candidate list is empty or whose synthesis fails is
omitted from the published mapping, and every id whose synthesis succeeds is
published, regardless of failures elsewhere. -/
theorem C2_per_id_isolation (modules : List String) (registry : CMRegistry)
    (hkeys : (registry.map Prod.fst).Nodup) :
    (∀ meta reg, (meta, reg) ∈ registry →
      ((filterUniqueClasses modules reg).isEmpty ∨
        synthesize meta (filterUniqueClasses modules reg) = none) →
      meta ∉ (classManagerInit modules registry).map Prod.fst) ∧
    (∀ meta reg c, (meta, reg) ∈ registry →
      ¬(filterUniqueClasses modules reg).isEmpty →
      synthesize meta (filterUniqueClasses modules reg) = some c →
      (meta, c) ∈ classManagerInit modules registry) :=
  ⟨fun meta reg hmem hfail => cmInit_absent modules registry hkeys meta reg hmem hfail,
    fun meta reg c hmem hne hs => cmInit_present modules registry meta reg c hmem hne hs⟩

theorem C2_witness :
    ("meta.one" ∉ (classManagerInit ["m1"] regConflict).map Prod.fst) ∧
    ("meta.two", Y1) ∈ classManagerInit ["m1"] regConflict := by
  have h := C2_per_id_isolation ["m1"] regConflict (by decide)
  exact ⟨h.1 "meta.one" ⟨[("m1", [X1, X2])], []⟩ (by decide) (Or.inr (by decide)),
    h.2 "meta.two" ⟨[("m1", [Y1])], []⟩ Y1 (by decide) (by decide) (by decide)⟩

/-- C3 counterexample: the claim says a module's registered variants appear in
the candidate list in registration order.  `register_class` does `insert(0)`,
so the bucket — and hence the candidate list — holds them most-recent-first:
registering `XB` then `XB2` yields candidates `[XB2, XB]`, not `[XB, XB2]`. -/
theorem C3_counterexample :
    gatherAllClasses ["crmbase"] (registerAll emptyMCR [XB, XB2]) = [XB2, XB] ∧
    ([XB2, XB] : List PyClass) ≠ [XB, XB2] :=
  ⟨by decide, by decide⟩

/-- C3 amended: for every abstraction id the candidate list equals, for each
installed module taken in reverse load order, that module's registered
variants in *reverse* registration order (most recently registered first),
followed by the core-owned variants last, also most-recent-first.  (The module
iteration order is the spec-modelled `installedModulesReversed`, since
`default_installed_modules` is absent from the sources.)  The consequence
claimed does hold: with base module `crmbase` and dependent module `crmext`
both contributing a `UserManager` variant, the compiled type resolves the
overlapping member `create` to `crmext`'s variant. -/
theorem C3_reverse_bucket_order :
    (∀ (names : List String) (events : List PyClass), "_" ∉ names →
      gatherAllClasses (installedModulesReversed names) (registerAll emptyMCR events) =
        ((names.reverse).flatMap
            (fun m => (events.filter (fun c => extractModuleName c = m)).reverse)) ++
          (events.filter (fun c => extractModuleName c = "_")).reverse) ∧
    (getItem (classManagerInit (installedModulesReversed ["base", "crmbase", "crmext"]) regBD)
        "master.core.svc.UserManager").map (fun c => attrProvider c "create") =
      .ok (some "master.addons.crmext.managers.UserManager") := by
  constructor
  · exact fun names events hm => gather_registerAll names events hm
  · rfl

theorem C3_witness :
    (("_" : String) ∉ ["crmbase", "crmext"]) ∧
    gatherAllClasses (installedModulesReversed ["crmbase", "crmext"])
        (registerAll emptyMCR [XB, XD]) = [XD, XB] := by
  constructor
  · decide
  · rw [C3_reverse_bucket_order.1 ["crmbase", "crmext"] [XB, XD] (by decide)]
    decide

/-- C4 counterexample: registration is not idempotent.  Registering the same
class twice leaves two occurrences in the bucket, and both survive
deduplication (`other != cls` never compares a class with itself), so the
compile-time candidate list contains the type twice. -/
theorem C4_counterexample :
    bucketOf (registerAll emptyMCR [XB, XB]) "crmbase" = [XB, XB] ∧
    filterUniqueClasses ["crmbase"] (registerAll emptyMCR [XB, XB]) = [XB, XB] :=
  ⟨by decide, by decide⟩

/-- C4 amended: each `register_class` call unconditionally prepends the class
to its bucket and never removes entries, so registering the same `(type,
abstraction id)` pair twice leaves exactly two occurrences (most recent
first), and the gathered candidate list then contains that type twice. -/
theorem C4_register_not_idempotent :
    (∀ (reg : ModuleClassRegistry) (c : PyClass),
      ownBucket (registerClassMCR (registerClassMCR reg c) c) c =
        c :: c :: ownBucket reg c) ∧
    (gatherAllClasses ["crmbase"] (registerAll emptyMCR [XB, XB])).count XB = 2 := by
  constructor
  · intro reg c
    unfold ownBucket
    by_cases h : extractModuleName c = "_"
    · rw [if_pos h, registerMCR_core, if_pos h, registerMCR_core, if_pos h, if_pos h]
    · rw [if_neg h, registerMCR_bucket_own _ _ h, registerMCR_bucket_own _ _ h, if_neg h]
  · decide

/-- C9: when synthesis for one abstraction id fails, `ClassManager.__init__`
still completes; the failing id is absent from the compiled mapping, so
`__getitem__` on it raises `KeyError`, while every id whose synthesis succeeds
remains retrievable with its compiled class. -/
theorem C9_failed_meta_keyerror (modules : List String) (registry : CMRegistry)
    (hkeys : (registry.map Prod.fst).Nodup) (meta : String) (reg : ModuleClassRegistry)
    (hmem : (meta, reg) ∈ registry)
    (hfail : synthesize meta (filterUniqueClasses modules reg) = none) :
    getItem (classManagerInit modules registry) meta = .error .keyError ∧
    (∀ meta2 reg2 c, (meta2, reg2) ∈ registry →
      ¬(filterUniqueClasses modules reg2).isEmpty →
      synthesize meta2 (filterUniqueClasses modules reg2) = some c →
      getItem (classManagerInit modules registry) meta2 = .ok c) := by
  constructor
  · have habs := cmInit_absent modules registry hkeys meta reg hmem (Or.inr hfail)
    unfold getItem
    rw [assoc_find?_none _ _ habs]
  · intro meta2 reg2 c hmem2 hne hs
    have hpres := cmInit_present modules registry meta2 reg2 c hmem2 hne hs
    have hnodup : ((classManagerInit modules registry).map Prod.fst).Nodup :=
      (cmInit_keys_sublist modules registry).nodup hkeys
    unfold getItem
    rw [assoc_find?_of_nodup _ _ _ hnodup hpres]

theorem C9_witness :
    getItem (classManagerInit ["m1"] regConflict) "meta.one" = .error .keyError ∧
    getItem (classManagerInit ["m1"] regConflict) "meta.two" = .ok Y1 := by
  have h := C9_failed_meta_keyerror ["m1"] regConflict (by decide) "meta.one"
    ⟨[("m1", [X1, X2])], []⟩ (by decide) (by decide)
  exact ⟨h.1, h.2 "meta.two" ⟨[("m1", [Y1])], []⟩ Y1 (by decide) (by decide) (by decide)⟩

/-- C10: defining a `BaseClass` subclass whose name is not an optional single
leading underscore followed by letters only raises `ValueError` at
class-definition time, before any registration occurs (the error is returned
with no successor registry state).  The side condition excludes a trailing
newline, which the source regex's `$` would tolerate but which cannot occur in
a class statement's identifier. -/
theorem C10_bad_name_valueerror (reg : CMRegistry) (c : PyClass)
    (hbad : specClassNorm c.name = false) (hnl : '\n' ∉ c.name.data) :
    initSubclass reg c = .error .valueError := by
  unfold initSubclass
  rw [is_class_norm_eq_spec _ hnl, hbad]
  rfl

theorem C10_witness :
    specClassNorm (PyClass.mk "master.addons.m1.x" "Abc1" [baseClassPy] []).name = false ∧
    '\n' ∉ (PyClass.mk "master.addons.m1.x" "Abc1" [baseClassPy] []).name.data ∧
    initSubclass [] (.mk "master.addons.m1.x" "Abc1" [baseClassPy] []) = .error .valueError :=
  ⟨by decide, by decide, C10_bad_name_valueerror [] _ (by decide) (by decide)⟩

/-! ## Graph invariants toward C7 -/

/-- A descriptor that came out of `Configuration.__init__`. -/
def IsValidated (cfg : Configuration) : Prop :=
  ∃ name depends seq, cfg = mkConfiguration name depends seq

theorem validated_base_depends (cfg : Configuration) (hv : IsValidated cfg)
    (h : cfg.name = base_addon) : cfg.depends = [] := by
  obtain ⟨name, depends, seq, rfl⟩ := hv
  have hn : name = base_addon := h
  simp only [mkConfiguration]
  rw [if_pos hn]

theorem validated_mem_base (cfg : Configuration) (hv : IsValidated cfg)
    (h : cfg.name ≠ base_addon) : base_addon ∈ cfg.depends := by
  obtain ⟨name, depends, seq, rfl⟩ := hv
  have hn : name ≠ base_addon := h
  simp only [mkConfiguration]
  rw [if_neg hn]
  by_cases h2 : base_addon ∈ (depends.filter (fun s => s ≠ "")).map pyStrip
  · rw [if_neg (fun hand => hand.2 h2)]
    exact h2
  · rw [if_pos ⟨hn, h2⟩]
    exact List.mem_cons_self _ _

theorem addChild_map_name (ns : List Node) (p c : String) :
    (addChild ns p c).map Node.name = ns.map Node.name := by
  unfold addChild
  rw [List.map_map]
  refine List.map_congr_left ?_
  intro n _
  simp only [Function.comp]
  by_cases h1 : n.name = p <;> by_cases h2 : n.name = c <;> simp [h1, h2] <;>
    split <;> simp [h1, h2]

theorem findNode_isSome_iff (ns : List Node) (x : String) :
    (findNode ns x).isSome ↔ x ∈ ns.map Node.name := by
  unfold findNode
  rw [List.find?_isSome]
  constructor
  · rintro ⟨n, hn, hp⟩
    simp only [decide_eq_true_eq] at hp
    exact List.mem_map.mpr ⟨n, hn, hp⟩
  · rintro hx
    obtain ⟨n, hn, he⟩ := List.mem_map.mp hx
    exact ⟨n, hn, by simpa using he⟩

theorem findNode_some_name (ns : List Node) (x : String) (n : Node)
    (h : findNode ns x = some n) : n.name = x := by
  have := List.find?_some h
  simpa using this

theorem findNode_some_mem (ns : List Node) (x : String) (n : Node)
    (h : findNode ns x = some n) : n ∈ ns :=
  List.mem_of_find?_eq_some h

theorem findNode_map_namepres (ns : List Node) (f : Node → Node)
    (hf : ∀ n, (f n).name = n.name) (x : String) :
    findNode (ns.map f) x = (findNode ns x).map f := by
  induction ns with
  | nil => rfl
  | cons n rest ih =>
    by_cases h : n.name = x
    · rw [List.map_cons]
      unfold findNode
      rw [List.find?_cons_of_pos _ (by simp [hf, h]), List.find?_cons_of_pos _ (by simp [h])]
      rfl
    · rw [List.map_cons]
      unfold findNode
      rw [List.find?_cons_of_neg _ (by simp [hf, h]), List.find?_cons_of_neg _ (by simp [h])]
      exact ih

theorem findNode_addChild (ns : List Node) (p c x : String) (hx : x ≠ c) :
    findNode (addChild ns p c) x =
      (findNode ns x).map (fun n =>
        if n.name = p then { n with children := n.children ++ [c] } else n) := by
  unfold addChild
  rw [findNode_map_namepres _ _
    (by
      intro n
      by_cases h1 : n.name = p <;> by_cases h2 : n.name = c <;> simp [h1, h2] <;>
        split <;> simp [h1, h2])]
  cases hf : findNode ns x with
  | none => rfl
  | some n =>
    have hname : n.name = x := findNode_some_name _ _ _ hf
    by_cases hp : n.name = p
    · have hpx : x = p := hname.symm.trans hp
      have hpc : ¬(p = c) := fun he => hx (hpx.trans he)
      simp [hp, hpx, hname, hx, hpc]
    · have hpx : ¬(x = p) := fun he => hp (hname.trans he)
      simp [hp, hpx, hname, hx]

/-- Node-list invariant maintained by linking: factors start at 10 and only
grow; a node that acquired a parent accumulated at least 20; every child edge
points at an existing node with a nonempty parent list. -/
def NodesOk (ns : List Node) : Prop :=
  (∀ n ∈ ns, (10 : Int) ≤ n.factor) ∧
  (∀ n ∈ ns, n.parents ≠ [] → (20 : Int) ≤ n.factor) ∧
  (∀ n ∈ ns, ∀ c ∈ n.children, ∃ m ∈ ns, m.name = c ∧ m.parents ≠ [])

/-- The base node is never linked as a child: factor 10 and no parents. -/
def BaseIntact (ns : List Node) : Prop :=
  ∃ bn, findNode ns base_addon = some bn ∧ bn.factor = 10 ∧ bn.parents = []

theorem foldl_buildNodes_extends (cs : List Configuration) (acc : List Node) :
    ∃ extra,
      cs.foldl (fun ns cfg => if (findNode ns cfg.name).isSome then ns else ns ++ [mkNode cfg])
        acc = acc ++ extra ∧ ∀ n ∈ extra, ∃ cfg ∈ cs, n = mkNode cfg := by
  induction cs generalizing acc with
  | nil => exact ⟨[], by simp, by simp⟩
  | cons cfg rest ih =>
    simp only [List.foldl_cons]
    by_cases hf : (findNode acc cfg.name).isSome
    · rw [if_pos hf]
      obtain ⟨extra, he, hmem⟩ := ih acc
      exact ⟨extra, he, fun n hn =>
        (hmem n hn).elim (fun cfg2 h2 => ⟨cfg2, List.mem_cons_of_mem _ h2.1, h2.2⟩)⟩
    · rw [if_neg hf]
      obtain ⟨extra, he, hmem⟩ := ih (acc ++ [mkNode cfg])
      refine ⟨mkNode cfg :: extra, by simpa using he, ?_⟩
      intro n hn
      rcases List.mem_cons.mp hn with rfl | hn2
      · exact ⟨cfg, List.mem_cons_self _ _, rfl⟩
      · obtain ⟨cfg2, h2, he2⟩ := hmem n hn2
        exact ⟨cfg2, List.mem_cons_of_mem _ h2, he2⟩

theorem buildNodes_shape (baseCfg : Configuration) (configs : List Configuration) :
    ∃ rest, buildNodes baseCfg configs = mkNode baseCfg :: rest ∧
      ∀ n ∈ rest, ∃ cfg ∈ configs, n = mkNode cfg := by
  unfold buildNodes
  obtain ⟨extra, he, hmem⟩ := foldl_buildNodes_extends configs [mkNode baseCfg]
  exact ⟨extra, by simpa using he, hmem⟩

theorem buildNodes_all_mk (baseCfg : Configuration) (configs : List Configuration)
    (n : Node) (hn : n ∈ buildNodes baseCfg configs) :
    n = mkNode baseCfg ∨ ∃ cfg ∈ configs, n = mkNode cfg := by
  obtain ⟨rest, he, hmem⟩ := buildNodes_shape baseCfg configs
  rw [he] at hn
  rcases List.mem_cons.mp hn with rfl | hn2
  · exact Or.inl rfl
  · exact Or.inr (hmem n hn2)

theorem buildNodes_NodesOk (baseCfg : Configuration) (configs : List Configuration) :
    NodesOk (buildNodes baseCfg configs) := by
  refine ⟨?_, ?_, ?_⟩ <;> intro n hn
  · rcases buildNodes_all_mk _ _ _ hn with rfl | ⟨cfg, _, rfl⟩ <;> simp [mkNode]
  · rcases buildNodes_all_mk _ _ _ hn with rfl | ⟨cfg, _, rfl⟩ <;> simp [mkNode]
  · rcases buildNodes_all_mk _ _ _ hn with rfl | ⟨cfg, _, rfl⟩ <;> simp [mkNode]

theorem buildNodes_BaseIntact (baseCfg : Configuration) (configs : List Configuration)
    (hb : baseCfg.name = base_addon) : BaseIntact (buildNodes baseCfg configs) := by
  obtain ⟨rest, he, _⟩ := buildNodes_shape baseCfg configs
  refine ⟨mkNode baseCfg, ?_, rfl, rfl⟩
  rw [he]
  unfold findNode
  exact List.find?_cons_of_pos _ (by simp [mkNode, hb])

theorem foldl_buildNodes_mem (cs : List Configuration) (acc : List Node)
    (cfg : Configuration) (hc : cfg ∈ cs) :
    cfg.name ∈ ((cs.foldl
      (fun ns cfg2 => if (findNode ns cfg2.name).isSome then ns else ns ++ [mkNode cfg2])
      acc)).map Node.name := by
  induction cs generalizing acc with
  | nil => simp at hc
  | cons cfg0 rest ih =>
    simp only [List.foldl_cons]
    have hsub : ∀ (acc2 : List Node) (x : String), x ∈ acc2.map Node.name →
        x ∈ ((rest.foldl
          (fun ns cfg2 => if (findNode ns cfg2.name).isSome then ns else ns ++ [mkNode cfg2])
          acc2)).map Node.name := by
      intro acc2 x hx
      obtain ⟨extra, he, _⟩ := foldl_buildNodes_extends rest acc2
      rw [he, List.map_append]
      exact List.mem_append.mpr (Or.inl hx)
    rcases List.mem_cons.mp hc with heq | hmem
    · subst heq
      by_cases hf : (findNode acc cfg.name).isSome
      · rw [if_pos hf]
        exact hsub _ _ ((findNode_isSome_iff _ cfg.name).mp hf)
      · rw [if_neg hf]
        exact hsub _ _ (by simp [mkNode])
    · by_cases hf : (findNode acc cfg0.name).isSome
      · rw [if_pos hf]
        exact ih _ hmem
      · rw [if_neg hf]
        exact ih _ hmem

theorem buildNodes_mem_names (baseCfg : Configuration) (configs : List Configuration)
    (cfg : Configuration) (hc : cfg ∈ configs) :
    cfg.name ∈ (buildNodes baseCfg configs).map Node.name :=
  foldl_buildNodes_mem configs [mkNode baseCfg] cfg hc

theorem foldl_buildNodes_nodup (cs : List Configuration) (acc : List Node)
    (h : (acc.map Node.name).Nodup) :
    (((cs.foldl
      (fun ns cfg2 => if (findNode ns cfg2.name).isSome then ns else ns ++ [mkNode cfg2])
      acc)).map Node.name).Nodup := by
  induction cs generalizing acc with
  | nil => exact h
  | cons cfg0 rest ih =>
    simp only [List.foldl_cons]
    by_cases hf : (findNode acc cfg0.name).isSome
    · rw [if_pos hf]
      exact ih _ h
    · rw [if_neg hf]
      refine ih _ ?_
      have hnm : cfg0.name ∉ acc.map Node.name :=
        fun hmem => hf ((findNode_isSome_iff _ _).mpr hmem)
      rw [List.map_append]
      simp [List.nodup_append, h, hnm, mkNode]

theorem buildNodes_names_nodup (baseCfg : Configuration) (configs : List Configuration) :
    ((buildNodes baseCfg configs).map Node.name).Nodup :=
  foldl_buildNodes_nodup configs [mkNode baseCfg] (by simp)

/-- The per-node update `add_child` performs, with the parent factor read
before the update. -/
def addChildF (pf : Int) (p c : String) (n : Node) : Node :=
  let n1 := if n.name = p then { n with children := n.children ++ [c] } else n
  if n1.name = c then { n1 with parents := n1.parents ++ [p], factor := n1.factor + pf }
  else n1

theorem addChild_eq_map (ns : List Node) (p c : String) :
    addChild ns p c = ns.map (addChildF (((findNode ns p).map Node.factor).getD 0) p c) := rfl

theorem addChildF_name (pf : Int) (p c : String) (n : Node) :
    (addChildF pf p c n).name = n.name := by
  unfold addChildF
  by_cases h1 : n.name = p <;> by_cases h2 : n.name = c <;> simp [h1, h2] <;>
    split <;> simp [h1, h2]

theorem addChildF_factor (pf : Int) (p c : String) (n : Node) :
    (addChildF pf p c n).factor = if n.name = c then n.factor + pf else n.factor := by
  unfold addChildF
  by_cases h1 : n.name = p <;> by_cases h2 : n.name = c <;> simp [h1, h2] <;>
    split <;> simp_all

theorem addChildF_parents (pf : Int) (p c : String) (n : Node) :
    (addChildF pf p c n).parents = if n.name = c then n.parents ++ [p] else n.parents := by
  unfold addChildF
  by_cases h1 : n.name = p <;> by_cases h2 : n.name = c <;> simp [h1, h2] <;>
    split <;> simp_all

theorem addChildF_children (pf : Int) (p c : String) (n : Node) :
    (addChildF pf p c n).children = if n.name = p then n.children ++ [c] else n.children := by
  unfold addChildF
  by_cases h1 : n.name = p <;> by_cases h2 : n.name = c <;> simp [h1, h2] <;>
    split <;> simp_all

theorem addChild_NodesOk (ns : List Node) (p c : String) (hok : NodesOk ns)
    (hp : (findNode ns p).isSome) (hc : c ∈ ns.map Node.name) :
    NodesOk (addChild ns p c) := by
  obtain ⟨pn, hpn⟩ := Option.isSome_iff_exists.mp hp
  have hpf10 : (10 : Int) ≤ ((findNode ns p).map Node.factor).getD 0 := by
    rw [hpn]
    simpa using hok.1 pn (findNode_some_mem _ _ _ hpn)
  rw [addChild_eq_map]
  refine ⟨?_, ?_, ?_⟩
  · rintro n2 hn2
    obtain ⟨n, hn, rfl⟩ := List.mem_map.mp hn2
    rw [addChildF_factor]
    have h10 := hok.1 n hn
    by_cases h2 : n.name = c
    · rw [if_pos h2]
      omega
    · rw [if_neg h2]
      exact h10
  · rintro n2 hn2 hne
    obtain ⟨n, hn, rfl⟩ := List.mem_map.mp hn2
    rw [addChildF_factor]
    have h10 := hok.1 n hn
    by_cases h2 : n.name = c
    · rw [if_pos h2]
      omega
    · rw [if_neg h2]
      rw [addChildF_parents, if_neg h2] at hne
      exact hok.2.1 n hn hne
  · rintro n2 hn2 c0 hc0
    obtain ⟨n, hn, rfl⟩ := List.mem_map.mp hn2
    rw [addChildF_children] at hc0
    have hold : ∀ c1, c1 ∈ n.children →
        ∃ m2 ∈ ns.map (addChildF (((findNode ns p).map Node.factor).getD 0) p c),
          m2.name = c1 ∧ m2.parents ≠ [] := by
      intro c1 hc1
      obtain ⟨m, hm, hmn, hmp⟩ := hok.2.2 n hn c1 hc1
      refine ⟨addChildF _ p c m, List.mem_map_of_mem _ hm, by rw [addChildF_name]; exact hmn, ?_⟩
      rw [addChildF_parents]
      by_cases h2 : m.name = c <;> simp [h2, hmp]
    have hnew : ∀ _ : c0 = c,
        ∃ m2 ∈ ns.map (addChildF (((findNode ns p).map Node.factor).getD 0) p c),
          m2.name = c0 ∧ m2.parents ≠ [] := by
      rintro rfl
      obtain ⟨m, hm, hmn⟩ := List.mem_map.mp hc
      refine ⟨addChildF _ p c0 m, List.mem_map_of_mem _ hm, by rw [addChildF_name]; exact hmn, ?_⟩
      rw [addChildF_parents, if_pos hmn]
      simp
    by_cases h1 : n.name = p
    · rw [if_pos h1] at hc0
      rcases List.mem_append.mp hc0 with hc1 | hc1
      · exact hold c0 hc1
      · exact hnew (List.mem_singleton.mp hc1)
    · rw [if_neg h1] at hc0
      exact hold c0 hc0

theorem addChild_BaseIntact (ns : List Node) (p c : String) (hbi : BaseIntact ns)
    (hc : c ≠ base_addon) : BaseIntact (addChild ns p c) := by
  obtain ⟨bn, hfind, hfac, hpar⟩ := hbi
  have hbname : bn.name = base_addon := findNode_some_name _ _ _ hfind
  have hbc : ¬(bn.name = c) := fun he => hc (he ▸ hbname.symm ▸ rfl)
  rw [addChild_eq_map]
  unfold BaseIntact
  rw [findNode_map_namepres _ _ (addChildF_name _ _ _), hfind]
  refine ⟨addChildF (((findNode ns p).map Node.factor).getD 0) p c bn, by simp, ?_, ?_⟩
  · rw [addChildF_factor, if_neg hbc]
    exact hfac
  · rw [addChildF_parents, if_neg hbc]
    exact hpar

theorem processDeps_names (cfgName : String) (nodes : List Node) (incorrect : List String)
    (deps : List String) (i : Nat) :
    ((processDeps cfgName nodes incorrect deps i).1).map Node.name = nodes.map Node.name := by
  induction nodes, incorrect, deps, i using processDeps.induct cfgName with
  | case1 nodes incorrect deps i h d hnone ih =>
    unfold processDeps
    rw [dif_pos h, if_pos hnone]
    exact ih
  | case2 nodes incorrect deps i h d hnone ih =>
    unfold processDeps
    rw [dif_pos h, if_neg hnone]
    rw [ih, addChild_map_name]
  | case3 nodes incorrect deps i h =>
    unfold processDeps
    rw [dif_neg h]

theorem processDeps_nil (cfgName : String) (nodes : List Node) (incorrect : List String) :
    processDeps cfgName nodes incorrect [] 0 = (nodes, incorrect, []) := by
  unfold processDeps
  rw [dif_neg (by simp)]

theorem processDeps_preserves (cfgName : String) (nodes : List Node)
    (incorrect : List String) (deps : List String) (i : Nat)
    (hok : NodesOk nodes) (hbi : BaseIntact nodes)
    (hcn : cfgName ∈ nodes.map Node.name) (hcb : cfgName ≠ base_addon) :
    NodesOk (processDeps cfgName nodes incorrect deps i).1 ∧
      BaseIntact (processDeps cfgName nodes incorrect deps i).1 := by
  induction nodes, incorrect, deps, i using processDeps.induct cfgName with
  | case1 nodes incorrect deps i h d hnone ih =>
    unfold processDeps
    rw [dif_pos h, if_pos hnone]
    exact ih hok hbi hcn
  | case2 nodes incorrect deps i h d hnone ih =>
    have hp : (findNode nodes d).isSome := by
      cases hf : findNode nodes d with
      | none => rw [hf] at hnone; simp at hnone
      | some n => rfl
    have hok2 := addChild_NodesOk nodes d cfgName hok hp hcn
    have hbi2 := addChild_BaseIntact nodes d cfgName hbi hcb
    have hcn2 : cfgName ∈ (addChild nodes d cfgName).map Node.name := by
      rw [addChild_map_name]
      exact hcn
    unfold processDeps
    rw [dif_pos h, if_neg hnone]
    exact ih hok2 hbi2 hcn2
  | case3 nodes incorrect deps i h =>
    unfold processDeps
    rw [dif_neg h]
    exact ⟨hok, hbi⟩

theorem processDeps_deps_mem (cfgName : String) (nodes : List Node)
    (incorrect : List String) (deps : List String) (i : Nat) (x : String) :
    x ∈ nodes.map Node.name → x ∈ deps →
      x ∈ (processDeps cfgName nodes incorrect deps i).2.2 := by
  induction nodes, incorrect, deps, i using processDeps.induct cfgName with
  | case1 nodes incorrect deps i h d hnone ih =>
    intro hx hmem
    have hdx : x ≠ d := by
      rintro rfl
      have hs := (findNode_isSome_iff nodes d).mpr hx
      cases hf : findNode nodes d with
      | none => rw [hf] at hs; simp at hs
      | some n => rw [hf] at hnone; simp at hnone
    unfold processDeps
    rw [dif_pos h, if_pos hnone]
    exact ih hx ((List.mem_erase_of_ne hdx).mpr hmem)
  | case2 nodes incorrect deps i h d hnone ih =>
    intro hx hmem
    unfold processDeps
    rw [dif_pos h, if_neg hnone]
    exact ih (by rw [addChild_map_name]; exact hx) hmem
  | case3 nodes incorrect deps i h =>
    intro hx hmem
    unfold processDeps
    rw [dif_neg h]
    exact hmem

theorem linkAll_names (cfgs : List Configuration) (nodes : List Node)
    (incorrect : List String) :
    ((linkAll nodes incorrect cfgs).1).map Node.name = nodes.map Node.name := by
  induction cfgs generalizing nodes incorrect with
  | nil => rfl
  | cons cfg rest ih =>
    simp only [linkAll]
    rw [ih, processDeps_names]

theorem linkAll_preserves (cfgs : List Configuration) (nodes : List Node)
    (incorrect : List String)
    (hok : NodesOk nodes) (hbi : BaseIntact nodes)
    (hnames : ∀ cfg ∈ cfgs, cfg.name ∈ nodes.map Node.name)
    (hbase : ∀ cfg ∈ cfgs, cfg.name = base_addon → cfg.depends = []) :
    NodesOk (linkAll nodes incorrect cfgs).1 ∧ BaseIntact (linkAll nodes incorrect cfgs).1 := by
  induction cfgs generalizing nodes incorrect with
  | nil => exact ⟨hok, hbi⟩
  | cons cfg rest ih =>
    simp only [linkAll]
    by_cases hcb : cfg.name = base_addon
    · rw [hbase cfg (List.mem_cons_self _ _) hcb, processDeps_nil]
      exact ih nodes incorrect hok hbi
        (fun c2 h2 => hnames c2 (List.mem_cons_of_mem _ h2))
        (fun c2 h2 => hbase c2 (List.mem_cons_of_mem _ h2))
    · have h1 := processDeps_preserves cfg.name nodes incorrect cfg.depends 0 hok hbi
        (hnames cfg (List.mem_cons_self _ _)) hcb
      refine ih _ _ h1.1 h1.2 ?_ (fun c2 h2 => hbase c2 (List.mem_cons_of_mem _ h2))
      intro c2 h2
      rw [processDeps_names]
      exact hnames c2 (List.mem_cons_of_mem _ h2)

theorem linkAll_configs (cfgs : List Configuration) (nodes : List Node)
    (incorrect : List String) (hb : base_addon ∈ nodes.map Node.name) :
    ∀ cfg2 ∈ (linkAll nodes incorrect cfgs).2.2,
      ∃ cfg ∈ cfgs, cfg2.name = cfg.name ∧
        (cfg.depends = [] → cfg2.depends = []) ∧
        (base_addon ∈ cfg.depends → base_addon ∈ cfg2.depends) := by
  induction cfgs generalizing nodes incorrect with
  | nil => intro cfg2 h2; simp [linkAll] at h2
  | cons cfg rest ih =>
    intro cfg2 h2
    simp only [linkAll] at h2
    rcases List.mem_cons.mp h2 with rfl | h3
    · refine ⟨cfg, List.mem_cons_self _ _, rfl, ?_, ?_⟩
      · intro hdep
        simp only [hdep, processDeps_nil]
      · intro hdep
        exact processDeps_deps_mem cfg.name nodes incorrect cfg.depends 0 base_addon hb hdep
    · obtain ⟨cfg0, hmem0, hrest⟩ := ih _ _ (by rw [processDeps_names]; exact hb) cfg2 h3
      exact ⟨cfg0, List.mem_cons_of_mem _ hmem0, hrest⟩

theorem collectAllNodes_step (nodes : List Node) (current : String) (rest visited : List String)
    (h : current ∉ visited) :
    collectAllNodes nodes (current :: rest) visited =
      collectAllNodes nodes
        ((((findNode nodes current).map Node.children).getD []).reverse ++ rest)
        (visited ++ [current]) := by
  conv_lhs => unfold collectAllNodes
  rw [if_neg h]

theorem collectAllNodes_extends (nodes : List Node) (stack visited : List String) :
    ∃ rest2, collectAllNodes nodes stack visited = visited ++ rest2 := by
  induction stack, visited using collectAllNodes.induct nodes with
  | case1 visited =>
    exact ⟨[], by simp [collectAllNodes]⟩
  | case2 visited current rest hmem ih =>
    unfold collectAllNodes
    rw [if_pos hmem]
    exact ih
  | case3 visited current rest hmem children ih =>
    obtain ⟨r2, hr2⟩ := ih
    unfold collectAllNodes
    rw [if_neg hmem, hr2]
    exact ⟨current :: r2, by simp⟩

theorem collectAllNodes_sound (nodes : List Node) (P : String → Prop)
    (hcl : ∀ n ∈ nodes, ∀ c ∈ n.children, P c) (stack visited : List String) :
    (∀ x ∈ stack, P x) → (∀ x ∈ visited, P x) →
      ∀ x ∈ collectAllNodes nodes stack visited, P x := by
  induction stack, visited using collectAllNodes.induct nodes with
  | case1 visited =>
    intro _ hv
    unfold collectAllNodes
    exact hv
  | case2 visited current rest hmem ih =>
    intro hs hv
    unfold collectAllNodes
    rw [if_pos hmem]
    exact ih (fun x hx => hs x (List.mem_cons_of_mem _ hx)) hv
  | case3 visited current rest hmem children ih =>
    intro hs hv
    unfold collectAllNodes
    rw [if_neg hmem]
    refine ih ?_ ?_
    · intro x hx
      rcases List.mem_append.mp hx with hx1 | hx2
      · rw [List.mem_reverse] at hx1
        have hx3 : x ∈ ((findNode nodes current).map Node.children).getD [] := hx1
        cases hfind : findNode nodes current with
        | none => rw [hfind] at hx3; simp at hx3
        | some m =>
          rw [hfind] at hx3
          exact hcl m (findNode_some_mem _ _ _ hfind) x (by simpa using hx3)
      · exact hs x (List.mem_cons_of_mem _ hx2)
    · intro x hx
      rcases List.mem_append.mp hx with hx1 | hx2
      · exact hv x hx1
      · exact hs x (List.mem_cons.mpr (Or.inl (List.mem_singleton.mp hx2)))

theorem collectAllNodes_nodup (nodes : List Node) (stack visited : List String)
    (hv : visited.Nodup) : (collectAllNodes nodes stack visited).Nodup := by
  induction stack, visited using collectAllNodes.induct nodes with
  | case1 visited =>
    unfold collectAllNodes
    exact hv
  | case2 visited current rest hmem ih =>
    unfold collectAllNodes
    rw [if_pos hmem]
    exact ih hv
  | case3 visited current rest hmem children ih =>
    unfold collectAllNodes
    rw [if_neg hmem]
    exact ih (by simp [List.nodup_append, hv, hmem])

theorem keyLe_of_factor_lt (a b : Node) (h : a.factor < b.factor) : keyLe a b = true := by
  unfold keyLe
  rw [if_pos h]

theorem insertAfterEq_head_le {α : Type} (le : α → α → Bool) (x : α) (t0 : List α) (z : α)
    (hle : le x z = true) :
    insertAfterEq le (x :: t0) z = x :: insertAfterEq le t0 z := by
  simp [insertAfterEq, hle]

theorem foldl_insert_head {α : Type} (le : α → α → Bool) (x : α) (l : List α) (t0 : List α)
    (hx : ∀ z ∈ l, le x z = true) :
    ∃ t, l.foldl (insertAfterEq le) (x :: t0) = x :: t := by
  induction l generalizing t0 with
  | nil => exact ⟨t0, rfl⟩
  | cons z zs ih =>
    simp only [List.foldl_cons]
    rw [insertAfterEq_head_le le x t0 z (hx z (List.mem_cons_self _ _))]
    exact ih _ (fun z2 h2 => hx z2 (List.mem_cons_of_mem _ h2))

theorem pythonSorted_head {α : Type} (le : α → α → Bool) (x : α) (rest : List α)
    (hx : ∀ z ∈ rest, le x z = true) :
    ∃ t, pythonSorted le (x :: rest) = x :: t := by
  unfold pythonSorted
  simp only [List.foldl_cons]
  exact foldl_insert_head le x rest [] hx

theorem linkAll_configs_names (cfgs : List Configuration) (nodes : List Node)
    (incorrect : List String) :
    ((linkAll nodes incorrect cfgs).2.2).map Configuration.name = cfgs.map Configuration.name := by
  induction cfgs generalizing nodes incorrect with
  | nil => rfl
  | cons cfg rest ih =>
    simp only [linkAll, List.map_cons]
    rw [ih]

theorem findConfig_isSome_iff (cfgs : List Configuration) (x : String) :
    (findConfig cfgs x).isSome ↔ x ∈ cfgs.map Configuration.name := by
  unfold findConfig
  rw [List.find?_isSome]
  constructor
  · rintro ⟨c, hc, hp⟩
    simp only [decide_eq_true_eq] at hp
    exact List.mem_map.mpr ⟨c, hc, hp⟩
  · rintro hx
    obtain ⟨c, hc, he⟩ := List.mem_map.mp hx
    exact ⟨c, hc, by simpa using he⟩

theorem findConfig_some_name (cfgs : List Configuration) (x : String) (c : Configuration)
    (h : findConfig cfgs x = some c) : c.name = x := by
  have := List.find?_some h
  simpa using this

theorem findConfig_some_mem (cfgs : List Configuration) (x : String) (c : Configuration)
    (h : findConfig cfgs x = some c) : c ∈ cfgs :=
  List.mem_of_find?_eq_some h

theorem findNode_unique (ns : List Node) (hnodup : (ns.map Node.name).Nodup)
    (m y : Node) (hm : m ∈ ns) (hy : y ∈ ns) (he : m.name = y.name) : m = y :=
  List.inj_on_of_nodup_map hnodup hm hy he

theorem buildGraph_ok (configs : List Configuration) (st : GraphState)
    (h : buildGraph configs = .ok st) :
    ∃ baseCfg, findConfig configs base_addon = some baseCfg ∧
      st.nodes = (linkAll (buildNodes baseCfg configs) [] configs).1 ∧
      st.configs = (linkAll (buildNodes baseCfg configs) [] configs).2.2 := by
  unfold buildGraph at h
  cases hfc : findConfig configs base_addon with
  | none =>
    rw [hfc] at h
    simp at h
  | some baseCfg =>
    rw [hfc] at h
    simp only [] at h
    cases hcc : checkCycles (linkAll (buildNodes baseCfg configs) [] configs).1 with
    | error e =>
      rw [hcc] at h
      simp at h
    | ok u =>
      rw [hcc] at h
      simp only [] at h
      have hst := (Except.ok.inj h).symm
      exact ⟨baseCfg, rfl, by rw [hst], by rw [hst]⟩

theorem orderConfigurations_spec (st : GraphState)
    (hOK : NodesOk st.nodes)
    (hBI : BaseIntact st.nodes)
    (hnodupF : (st.nodes.map Node.name).Nodup)
    (hfcF : (findConfig st.configs base_addon).isSome)
    (hbasedep : ∀ cfgB, findConfig st.configs base_addon = some cfgB → cfgB.depends = [])
    (hmemB : ∀ cfg ∈ st.configs, cfg.name ≠ base_addon → base_addon ∈ cfg.depends) :
    (∃ cfg0, (orderConfigurations st).head? = some cfg0 ∧ cfg0.name = base_addon ∧
      cfg0.depends = []) ∧
    (∀ cfg ∈ orderConfigurations st, cfg.name ≠ base_addon → base_addon ∈ cfg.depends) := by
  obtain ⟨bn, hbn, hbnfac, hbnpar⟩ := hBI
  have hbnname : bn.name = base_addon := findNode_some_name _ _ _ hbn
  -- the collected names start with the base name
  have hstep := collectAllNodes_step st.nodes base_addon [] [] (by simp)
  obtain ⟨crest, hcrest⟩ := collectAllNodes_extends st.nodes
    ((((findNode st.nodes base_addon).map Node.children).getD []).reverse ++ []) ([] ++ [base_addon])
  have hcshape : collectAllNodes st.nodes [base_addon] [] = base_addon :: crest := by
    rw [hstep]
    simpa using hcrest
  have hsound : ∀ x ∈ collectAllNodes st.nodes [base_addon] [],
      x = base_addon ∨ ∃ m ∈ st.nodes, m.name = x ∧ m.parents ≠ [] := by
    refine collectAllNodes_sound st.nodes _ ?_ [base_addon] [] ?_ ?_
    · intro n hn c hc
      exact Or.inr (hOK.2.2 n hn c hc)
    · intro x hx
      rw [List.mem_singleton] at hx
      exact Or.inl hx
    · intro x hx
      simp at hx
  have hnodupc : (collectAllNodes st.nodes [base_addon] []).Nodup :=
    collectAllNodes_nodup st.nodes [base_addon] [] (by simp)
  have hbnotr : base_addon ∉ crest := by
    rw [hcshape] at hnodupc
    exact (List.nodup_cons.mp hnodupc).1
  -- the collected nodes: the base node first, every other with factor at least 20
  have hcnodes_shape : (collectAllNodes st.nodes [base_addon] []).filterMap (findNode st.nodes) =
      bn :: crest.filterMap (findNode st.nodes) := by
    rw [hcshape, List.filterMap_cons, hbn]
  have hrest20 : ∀ y ∈ crest.filterMap (findNode st.nodes), (20 : Int) ≤ y.factor := by
    intro y hy
    obtain ⟨nm, hnm, hfind⟩ := List.mem_filterMap.mp hy
    have hxmem : nm ∈ collectAllNodes st.nodes [base_addon] [] := by
      rw [hcshape]
      exact List.mem_cons_of_mem _ hnm
    rcases hsound nm hxmem with rfl | ⟨m, hm, hmn, hmp⟩
    · exact absurd hnm hbnotr
    · have hym : y = m := findNode_unique st.nodes hnodupF y m
        (findNode_some_mem _ _ _ hfind) hm (by rw [findNode_some_name _ _ _ hfind, hmn])
      subst hym
      exact hOK.2.1 y hm hmp
  have hkle : ∀ z ∈ crest.filterMap (findNode st.nodes), keyLe bn z = true := by
    intro z hz
    refine keyLe_of_factor_lt bn z ?_
    have := hrest20 z hz
    omega
  obtain ⟨stail, hsorted0⟩ :=
    pythonSorted_head keyLe bn (crest.filterMap (findNode st.nodes)) hkle
  have hsorted : pythonSorted keyLe
      ((collectAllNodes st.nodes [base_addon] []).filterMap (findNode st.nodes)) =
      bn :: stail := by
    rw [hcnodes_shape, hsorted0]
  obtain ⟨cfgB, hcfgB⟩ := Option.isSome_iff_exists.mp hfcF
  have hcfgBname : cfgB.name = base_addon := findConfig_some_name _ _ _ hcfgB
  have hcfgBdep : cfgB.depends = [] := hbasedep cfgB hcfgB
  have hordeq : orderConfigurations st =
      (pythonSorted keyLe
        ((collectAllNodes st.nodes [base_addon] []).filterMap (findNode st.nodes))).filterMap
        (fun n => (findConfig st.configs n.name).map (fun cfg =>
          { cfg with
            reversed_depends := n.children,
            depends := ((pythonSorted keyLe
              ((collectAllNodes st.nodes [base_addon] []).filterMap
                (findNode st.nodes))).map Node.name).filter
              (fun m => m ∈ cfg.depends) })) := rfl
  rw [hordeq, hsorted]
  have hfbn : findConfig st.configs bn.name = some cfgB := by
    rw [hbnname]
    exact hcfgB
  constructor
  · refine ⟨{ cfgB with
      reversed_depends := bn.children,
      depends := (((bn :: stail).map Node.name).filter (fun m => m ∈ cfgB.depends)) }, ?_, ?_, ?_⟩
    · rw [List.filterMap_cons, hfbn]
      rfl
    · exact hcfgBname
    · simp [hcfgBdep]
  · intro cfg hcfg hne
    obtain ⟨n, hn, hf⟩ := List.mem_filterMap.mp hcfg
    cases hfc2 : findConfig st.configs n.name with
    | none =>
      rw [hfc2] at hf
      simp at hf
    | some cfg0 =>
      rw [hfc2] at hf
      have hcfgeq : ({ cfg0 with
          reversed_depends := n.children,
          depends := (((bn :: stail).map Node.name).filter
            (fun m => m ∈ cfg0.depends)) } : Configuration) = cfg := Option.some.inj hf
      have hname2 : cfg.name = cfg0.name := by rw [← hcfgeq]
      have hmem0 : cfg0 ∈ st.configs := findConfig_some_mem _ _ _ hfc2
      have hbdep0 : base_addon ∈ cfg0.depends :=
        hmemB cfg0 hmem0 (by rw [← hname2]; exact hne)
      have hbord : base_addon ∈ (bn :: stail).map Node.name :=
        List.mem_map.mpr ⟨bn, List.mem_cons_self _ _, hbnname⟩
      rw [← hcfgeq]
      simp only []
      exact List.mem_filter.mpr ⟨hbord, by simpa using hbdep0⟩

/-- C7: in every successfully built load order, the base module occupies
position 0 with an empty dependency list, and every other ordered descriptor's
dependency list contains the base module. -/
theorem C7_base_position_zero (configs : List Configuration) (order : List Configuration)
    (hval : ∀ cfg ∈ configs, IsValidated cfg)
    (hok : loadOrder configs = .ok order) :
    (∃ cfg0, order.head? = some cfg0 ∧ cfg0.name = base_addon ∧ cfg0.depends = []) ∧
    (∀ cfg ∈ order, cfg.name ≠ base_addon → base_addon ∈ cfg.depends) := by
  unfold loadOrder at hok
  cases hbg : buildGraph configs with
  | error e =>
    rw [hbg] at hok
    simp [Except.map] at hok
  | ok st =>
    rw [hbg] at hok
    have horder : order = orderConfigurations st := (Except.ok.inj hok).symm
    obtain ⟨baseCfg, hfc, hnodes, hcfgs⟩ := buildGraph_ok configs st hbg
    have hbmem : baseCfg ∈ configs := findConfig_some_mem _ _ _ hfc
    have hbname : baseCfg.name = base_addon := findConfig_some_name _ _ _ hfc
    have hbase_dep : ∀ cfg ∈ configs, cfg.name = base_addon → cfg.depends = [] :=
      fun cfg hc h => validated_base_depends cfg (hval cfg hc) h
    have hmem_base0 : ∀ cfg ∈ configs, cfg.name ≠ base_addon → base_addon ∈ cfg.depends :=
      fun cfg hc h => validated_mem_base cfg (hval cfg hc) h
    have hpres := linkAll_preserves configs (buildNodes baseCfg configs) []
      (buildNodes_NodesOk baseCfg configs)
      (buildNodes_BaseIntact baseCfg configs hbname)
      (fun cfg hc => buildNodes_mem_names baseCfg configs cfg hc) hbase_dep
    have hnamesF := linkAll_names configs (buildNodes baseCfg configs) []
    have hOK : NodesOk st.nodes := by rw [hnodes]; exact hpres.1
    have hBI : BaseIntact st.nodes := by rw [hnodes]; exact hpres.2
    have hnodupF : (st.nodes.map Node.name).Nodup := by
      rw [hnodes, hnamesF]
      exact buildNodes_names_nodup baseCfg configs
    have hbmemns : base_addon ∈ (buildNodes baseCfg configs).map Node.name := by
      obtain ⟨bn0, hbn0, _, _⟩ := buildNodes_BaseIntact baseCfg configs hbname
      exact (findNode_isSome_iff _ _).mp (by rw [hbn0]; rfl)
    have hcfgnames : (st.configs).map Configuration.name = configs.map Configuration.name := by
      rw [hcfgs]
      exact linkAll_configs_names configs _ []
    have hcfacts := linkAll_configs configs (buildNodes baseCfg configs) [] hbmemns
    have hfcF : (findConfig st.configs base_addon).isSome := by
      rw [findConfig_isSome_iff, hcfgnames]
      exact List.mem_map.mpr ⟨baseCfg, hbmem, hbname⟩
    have hbasedepF : ∀ cfgB, findConfig st.configs base_addon = some cfgB →
        cfgB.depends = [] := by
      intro cfgB hcfgB
      have hmemF : cfgB ∈ st.configs := findConfig_some_mem _ _ _ hcfgB
      rw [hcfgs] at hmemF
      obtain ⟨src, hsrc, hname, hdep, _⟩ := hcfacts cfgB hmemF
      refine hdep (hbase_dep src hsrc ?_)
      rw [← hname]
      exact findConfig_some_name _ _ _ hcfgB
    have hmemBF : ∀ cfg ∈ st.configs, cfg.name ≠ base_addon → base_addon ∈ cfg.depends := by
      intro cfg hc hne
      rw [hcfgs] at hc
      obtain ⟨src, hsrc, hname, _, hbasemem⟩ := hcfacts cfg hc
      exact hbasemem (hmem_base0 src hsrc (by rw [← hname]; exact hne))
    rw [horder]
    exact orderConfigurations_spec st hOK hBI hnodupF hfcF hbasedepF hmemBF

theorem C7_witness :
    (∀ cfg ∈ [mkConfiguration "base" [] none, mkConfiguration "app" ["base"] none],
      IsValidated cfg) ∧
    loadOrder [mkConfiguration "base" [] none, mkConfiguration "app" ["base"] none] =
      .ok [⟨"base", [], 16, ["app"]⟩, ⟨"app", ["base"], 16, []⟩] ∧
    (∃ cfg0,
      ([⟨"base", [], 16, ["app"]⟩, ⟨"app", ["base"], 16, []⟩] : List Configuration).head? =
        some cfg0 ∧ cfg0.name = base_addon ∧ cfg0.depends = []) ∧
    (∀ cfg ∈ ([⟨"base", [], 16, ["app"]⟩, ⟨"app", ["base"], 16, []⟩] : List Configuration),
      cfg.name ≠ base_addon → base_addon ∈ cfg.depends) := by
  have hval : ∀ cfg ∈ [mkConfiguration "base" [] none, mkConfiguration "app" ["base"] none],
      IsValidated cfg := by
    intro cfg hc
    rcases List.mem_cons.mp hc with rfl | hc2
    · exact ⟨"base", [], none, rfl⟩
    · rcases List.mem_cons.mp hc2 with rfl | hc3
      · exact ⟨"app", ["base"], none, rfl⟩
      · simp at hc3
  have hloadeq : loadOrder [mkConfiguration "base" [] none, mkConfiguration "app" ["base"] none] =
      .ok [⟨"base", [], 16, ["app"]⟩, ⟨"app", ["base"], 16, []⟩] := by
    simp [loadOrder, buildGraph, mkConfiguration, pyStrip, isPySpace, findConfig, List.find?,
      buildNodes, mkNode, findNode, linkAll, processDeps, addChild, checkCycles,
      collectAllNodes, orderConfigurations, pythonSorted, insertAfterEq, keyLe, strLt,
      base_addon, List.findSome?, List.foldl, Except.map]
  have hmain := C7_base_position_zero _ _ hval hloadeq
  exact ⟨hval, hloadeq, hmain.1, hmain.2⟩
